import Mathlib

/-!
# Verification of the PyHearthStone game rules engine

A shallow embedding of the card/entity data model, the combat arithmetic,
the minion target-selection algorithms, the turn state machine of
`src/a2.py`, and the snapshot serializer, together with theorems settling
the frozen claims about them.

Conventions of the embedding:
* Python `int` values (health, shield, energy) become `Int`; card costs and
  Fireball turn counters, which the program only ever builds from
  non-negative literals or `isdigit`-validated strings, become `Nat`.
* Mutable objects threaded by reference become explicit state passing.
  Active minions are mutated through aliased references (a roster list, the
  stale list snapshot a `for` loop iterates, and the acting minion itself
  can all denote one object), so minions live in an append-only store
  (`HearthModel.store`) and rosters are lists of store indices; mutating a
  minion updates the store entry, exactly as mutating the shared Python
  object does.
* Python strings become `List Char`; `str.split`, `str.join`, `str(int)`,
  `int(...)` and `str.isdigit` are modelled character by character.
* The unbounded `while` loop of the enemy turn is modelled with an explicit
  fuel equal to the enemy hand size; each iteration that continues removes
  one card from the hand, so this fuel is never exhausted before the
  loop's own stopping condition fires (proved where needed).
-/

namespace PyHearth

/-- The three minion variants of the catalog (`Minion`, `Wyrm`, `Raptor`
in `src/a2.py`). -/
inductive MinionVariant where
  | generic
  | wyrm
  | raptor
deriving DecidableEq, Repr

/-- The `Entity` facet of a minion object: its variant tag plus the mutable
`_health` and `_shield` fields (`Minion.__init__`). -/
structure MinionData where
  variant : MinionVariant
  health : Int
  shield : Int
deriving DecidableEq, Repr

/-- The closed catalog of cards (`Card`, `Shield`, `Heal`, `Fireball`,
`Minion`, `Wyrm`, `Raptor` in `src/a2.py`).  A minion card carries its
entity facet, since Python's `Minion` is simultaneously a `Card` and an
`Entity`. -/
inductive Card where
  | basic
  | shield
  | heal
  | fireball (turns : Nat)
  | minionCard (d : MinionData)
deriving DecidableEq, Repr

/-- `_cost` as set by each card constructor. -/
def Card.cost : Card → Nat
  | .basic => 1
  | .shield => 1
  | .heal => 2
  | .fireball _ => 3
  | .minionCard _ => 2

/-- `_is_permanent` as set by each card constructor: only minions are
permanent. -/
def Card.isPerm : Card → Bool
  | .minionCard _ => true
  | _ => false

/-- `type(card).__name__`, recorded by `end_turn` for each card the enemy
plays. -/
def Card.typeName : Card → String
  | .basic => "Card"
  | .shield => "Shield"
  | .heal => "Heal"
  | .fireball _ => "Fireball"
  | .minionCard d =>
    match d.variant with
    | .generic => "Minion"
    | .wyrm => "Wyrm"
    | .raptor => "Raptor"

/-- A card's `_effect` dictionary: at most one value for each of the keys
`DAMAGE`, `HEALTH`, `SHIELD`. -/
structure Effect where
  damage : Option Int
  health : Option Int
  shield : Option Int
deriving DecidableEq, Repr

/-- `get_effect` of a minion.  `Raptor.get_effect` recomputes
`_effect[DAMAGE]` from the minion's live health on every read, so the
effect is a function of the current `MinionData`. -/
def minionEffect (d : MinionData) : Effect :=
  match d.variant with
  | .generic => ⟨none, none, none⟩
  | .wyrm => ⟨none, some 1, some 1⟩
  | .raptor => ⟨some d.health, none, none⟩

/-- `get_effect` of any card (for minion cards this delegates to the
dynamic minion effect). -/
def Card.effect : Card → Effect
  | .basic => ⟨none, none, none⟩
  | .shield => ⟨none, none, some 5⟩
  | .heal => ⟨none, some 2, none⟩
  | .fireball t => ⟨some ((t : Int) + 3), none, none⟩
  | .minionCard d => minionEffect d

/-- `Fireball.increment_turn` applied to every card of the hand whose name
is `FIREBALL_NAME` (the loop at the top of `Hero.new_turn`); other cards
are untouched. -/
def incFireball : Card → Card
  | .fireball t => .fireball (t + 1)
  | c => c

/-- `Entity.apply_damage` on a `(health, shield)` pair: damage is absorbed
by the shield first, and health is clamped at `0`. -/
def applyDamage (health shield : Int) (damage : Int) : Int × Int :=
  if damage ≤ shield then
    (health, shield - damage)
  else
    let damageToHealth := damage - shield
    let h := health - damageToHealth
    (if h < 0 then 0 else h, 0)

/-- `_use_effect`'s application order on a single target's
`(health, shield)` pair: `DAMAGE` (if present), then `HEALTH`, then
`SHIELD`. -/
def applyEffectHS (e : Effect) (health shield : Int) : Int × Int :=
  let hs1 :=
    match e.damage with
    | some d => applyDamage health shield d
    | none => (health, shield)
  let h2 :=
    match e.health with
    | some x => hs1.1 + x
    | none => hs1.1
  let s2 :=
    match e.shield with
    | some x => hs1.2 + x
    | none => hs1.2
  (h2, s2)

/-- A `Hero`: an entity with an energy economy, a deck and a hand
(`Hero.__init__`; on construction `energy = energy_capacity`). -/
structure Hero where
  health : Int
  shield : Int
  energyCapacity : Int
  energy : Int
  deck : List Card
  hand : List Card
deriving DecidableEq, Repr

/-- `Hero.is_alive`: health positive AND the deck non-empty. -/
def Hero.isAlive (h : Hero) : Bool :=
  h.health > 0 && h.deck.length > 0

/-- `CardDeck.draw_cards`: if more cards are requested than remain, all are
drawn; otherwise the Python slice `cards[0:num]` is removed and returned.
The slice bound is an `Int` because `Hero.new_turn` computes it as
`5 - len(hand)`, which is negative for hands of more than five cards; the
negative case follows Python slice semantics (`lst[0:-k]` is all but the
last `k` elements).  Returns `(drawn, remaining deck)`. -/
def drawCards (num : Int) (cards : List Card) : List Card × List Card :=
  if num > (cards.length : Int) then
    (cards, [])
  else
    let stop := if num < 0 then ((cards.length : Int) + num).toNat else num.toNat
    (cards.take stop, cards.drop stop)

/-- `Hero.spend_energy`: deduct and return `true` iff the cost is at most
the current energy, otherwise change nothing and return `false`. -/
def Hero.spendEnergy (h : Hero) (energy : Int) : Bool × Hero :=
  if energy ≤ h.energy then
    (true, { h with energy := h.energy - energy })
  else
    (false, h)

/-- `Hero.new_turn`: age every Fireball in hand, then draw
`5 - len(hand)` cards from the deck into the hand, then grow the energy
capacity by one and refill the energy. -/
def Hero.newTurn (h : Hero) : Hero :=
  let hand1 := h.hand.map incFireball
  let numToDraw : Int := 5 - (hand1.length : Int)
  let (drawn, deck') := drawCards numToDraw h.deck
  { h with
    hand := hand1 ++ drawn
    deck := deck'
    energyCapacity := h.energyCapacity + 1
    energy := h.energyCapacity + 1 }

/-! ## The game engine (`HearthModel`) -/

/-- The full game state owned by `HearthModel.__init__`.  Active minions
are mutable shared objects; they live in the append-only `store`, and the
two rosters hold store indices in slot order.  Mutating a minion mutates
its store entry, which every alias (roster entry, stale iteration list,
chosen target) observes, as in Python. -/
structure HearthModel where
  player : Hero
  enemy : Hero
  playerMinions : List Nat
  enemyMinions : List Nat
  store : List MinionData
deriving DecidableEq, Repr

/-- A reference to the entity an effect is applied to: one of the two
heroes, or a minion object (a store index). -/
inductive Target where
  | player
  | enemy
  | minion (id : Nat)
deriving DecidableEq, Repr

/-- `HearthModel.has_won`: the player's hero is alive and the enemy's hero
is not. -/
def hasWon (m : HearthModel) : Bool :=
  m.player.isAlive && !m.enemy.isAlive

/-- `HearthModel.has_lost`: the player's hero is not alive. -/
def hasLost (m : HearthModel) : Bool :=
  !m.player.isAlive

/-- `Entity.is_alive` of the minion stored at `id` (dangling indices never
arise from the operations below). -/
def aliveIn (store : List MinionData) (id : Nat) : Bool :=
  match store.get? id with
  | some d => d.health > 0
  | none => false

/-- `HearthModel._remove_defeated_minions`: replace both rosters by the
sublists of minions whose health is positive. -/
def removeDefeated (m : HearthModel) : HearthModel :=
  { m with
    playerMinions := m.playerMinions.filter (aliveIn m.store)
    enemyMinions := m.enemyMinions.filter (aliveIn m.store) }

/-- Apply an effect to the referenced entity (the three
`target.apply_*` calls inside `_use_effect`). -/
def applyToTarget (e : Effect) (t : Target) (m : HearthModel) : HearthModel :=
  match t with
  | .player =>
    let hs := applyEffectHS e m.player.health m.player.shield
    { m with player := { m.player with health := hs.1, shield := hs.2 } }
  | .enemy =>
    let hs := applyEffectHS e m.enemy.health m.enemy.shield
    { m with enemy := { m.enemy with health := hs.1, shield := hs.2 } }
  | .minion id =>
    match m.store.get? id with
    | none => m
    | some d =>
      let hs := applyEffectHS e d.health d.shield
      { m with store := m.store.set id { d with health := hs.1, shield := hs.2 } }

/-- `HearthModel._use_effect`: prune defeated minions, apply the effect to
the single target, prune again. -/
def useEffect (e : Effect) (t : Target) (m : HearthModel) : HearthModel :=
  removeDefeated (applyToTarget e t (removeDefeated m))

/-! ### Minion target selection -/

/-- The loop of `Wyrm.choose_target` over `(object, health)` pairs:
`none` stands for the initial best, the ally hero; a minion replaces the
best only when its health is strictly lower. -/
def wyrmScan : Option Nat × Int → List (Nat × Int) → Option Nat × Int
  | best, [] => best
  | (best, bestH), (id, h) :: rest =>
    if h < bestH then wyrmScan (some id, h) rest
    else wyrmScan (best, bestH) rest

/-- `Wyrm.choose_target`: result `none` is the ally hero, `some id` the
chosen ally minion. -/
def wyrmChoose (allyHeroHealth : Int) (allyMinions : List (Nat × Int)) :
    Option Nat :=
  (wyrmScan (none, allyHeroHealth) allyMinions).1

/-- The loop of `Raptor.choose_target`: the first enemy minion seeds the
best, and a minion replaces it only when its health is strictly higher;
the Python loop re-visits the seed (a no-op). -/
def raptorScan : Nat × Int → List (Nat × Int) → Nat × Int
  | best, [] => best
  | (bid, bh), (id, h) :: rest =>
    if h > bh then raptorScan (id, h) rest
    else raptorScan (bid, bh) rest

/-- `Raptor.choose_target`: `none` is the enemy hero (no enemy minions),
`some id` the chosen enemy minion. -/
def raptorChoose (enemyMinions : List (Nat × Int)) : Option Nat :=
  match enemyMinions with
  | [] => none
  | first :: _ => some (raptorScan first enemyMinions).1

/-- The `(object, get_health())` view of a roster that the targeting
loops iterate. -/
def healthPairs (ids : List Nat) (store : List MinionData) :
    List (Nat × Int) :=
  ids.filterMap fun i => (store.get? i).map fun d => (i, d.health)

/-- `minion.choose_target(...)` as called from `end_turn`: ally/enemy
sides are relative to the acting minion (`playerSide = true` when it
fights for the player).  A generic minion returns itself. -/
def chooseTargetOf (playerSide : Bool) (selfId : Nat) (v : MinionVariant)
    (m : HearthModel) : Target :=
  let allyIds := if playerSide then m.playerMinions else m.enemyMinions
  let enemyIds := if playerSide then m.enemyMinions else m.playerMinions
  let allyHero := if playerSide then m.player else m.enemy
  match v with
  | .generic => .minion selfId
  | .wyrm =>
    match wyrmChoose allyHero.health (healthPairs allyIds m.store) with
    | none => if playerSide then .player else .enemy
    | some id => .minion id
  | .raptor =>
    match raptorChoose (healthPairs enemyIds m.store) with
    | none => if playerSide then .enemy else .player
    | some id => .minion id

/-- One step of a minion sweep in `end_turn`: the acting minion (looked up
through its reference, so with its current stats) chooses its target and
`_use_effect` resolves its current effect. -/
def actMinion (playerSide : Bool) (id : Nat) (m : HearthModel) :
    HearthModel :=
  match m.store.get? id with
  | none => m
  | some d =>
    let t := chooseTargetOf playerSide id d.variant m
    useEffect (minionEffect d) t m

/-- A minion sweep of `end_turn` (`for _minion in self._active_*_minions`):
the loop iterates the roster list object captured at loop entry — later
reassignments of the roster field do not change the iteration — so the
sweep folds over that entry-time snapshot `order`. -/
def sweepMinions (playerSide : Bool) (order : List Nat) (m : HearthModel) :
    HearthModel :=
  order.foldl (fun st i => actMinion playerSide i st) m

/-! ### Playing cards -/

/-- Slot insertion for a permanent card (`play_card` and the enemy loop of
`end_turn`): a full 5-slot roster first evicts index 0 via `pop(0)`, then
the new minion is appended.  The new minion object is appended to the
store; its reference is the store's previous length.  (`play_card`'s
trailing `while len > 5` loop is dead for the rosters of at most 5 minions
these operations maintain, and its body would fault, so it is not
modelled.) -/
def insertMinion (d : MinionData) (roster : List Nat)
    (store : List MinionData) : List Nat × List MinionData :=
  let roster1 := if roster.length = 5 then roster.tail else roster
  (roster1 ++ [store.length], store ++ [d])

/-- `list.remove(card)`: drop the first occurrence. -/
def removeFirst (c : Card) : List Card → List Card
  | [] => []
  | x :: rest => if x = c then rest else x :: removeFirst c rest

/-- `HearthModel.play_card`: spend the player's energy (failing returns
`false` with nothing mutated); on success remove the card from the hand,
then either promote a permanent card into the player roster or resolve
its effect against the target.  Returns the success flag with the new
state. -/
def playCard (c : Card) (t : Target) (m : HearthModel) :
    Bool × HearthModel :=
  let spent := m.player.spendEnergy (c.cost : Int)
  if spent.1 then
    let m1 := { m with
      player := { spent.2 with hand := removeFirst c spent.2.hand } }
    match c with
    | .minionCard d =>
      let rs := insertMinion d m1.playerMinions m1.store
      (true, { m1 with playerMinions := rs.1, store := rs.2 })
    | _ => (true, useEffect c.effect t m1)
  else
    (false, m)

/-- `HearthModel.discard_card`: append the card to the bottom of the
player's deck and remove it from the hand. -/
def discardCard (c : Card) (m : HearthModel) : HearthModel :=
  { m with player := { m.player with
      deck := m.player.deck ++ [c]
      hand := removeFirst c (m.player.hand) } }

/-! ### The enemy turn -/

/-- One scan of the enemy hand (the `for _card in ... get_hand()` loop):
the first card whose cost the enemy's current energy covers, together with
the unaffordable prefix scanned before it and the suffix after it.
`none` when a full scan affords nothing. -/
def findAffordable (energy : Int) : List Card →
    Option (List Card × Card × List Card)
  | [] => none
  | c :: rest =>
    if (c.cost : Int) ≤ energy then some ([], c, rest)
    else
      match findAffordable energy rest with
      | none => none
      | some (p, x, s) => some (c :: p, x, s)

/-- The enemy's resolution of one successfully played card inside
`end_turn`: a permanent card is enqueued into the enemy roster under the
5-slot eviction rule; a card with a damage effect targets the player's
hero; any other card targets the enemy hero itself. -/
def playEnemyCard (c : Card) (m : HearthModel) : HearthModel :=
  match c with
  | .minionCard d =>
    let rs := insertMinion d m.enemyMinions m.store
    { m with enemyMinions := rs.1, store := rs.2 }
  | _ =>
    if c.effect.damage.isSome then useEffect c.effect .player m
    else useEffect c.effect .enemy m

/-- The enemy card-playing `while` loop of `end_turn`, with fuel.  Each
scan either affords nothing (`_skipped_cards` reaches the hand size, so
the loop stops), or plays the first affordable card: energy is spent, the
card resolves, its type name is recorded and it leaves the hand.  The
loop then stops early exactly when `_skipped_cards` is at least the
shrunken hand's size, i.e. when the played card was the last card of the
hand; otherwise it rescans from the front.  Each continuing iteration
shrinks the hand by one card, so fuel `= hand size` (see `enemyLoop`)
reproduces the unbounded loop.  `enemyPlayStep` is the body of one
successful play: spend the energy, resolve the card, remove it from the
hand (`p ++ s` is the hand without the played card). -/
def enemyPlayStep (c : Card) (p s : List Card) (m : HearthModel) :
    HearthModel :=
  let m1 := { m with
    enemy := { m.enemy with energy := m.enemy.energy - (c.cost : Int) } }
  let m2 := playEnemyCard c m1
  { m2 with enemy := { m2.enemy with hand := p ++ s } }

/-- See `enemyPlayStep` and `enemyLoop`. -/
def enemyLoopAux : Nat → HearthModel → List String × HearthModel
  | 0, m => ([], m)
  | fuel + 1, m =>
    match findAffordable m.enemy.energy m.enemy.hand with
    | none => ([], m)
    | some (p, c, s) =>
      let m3 := enemyPlayStep c p s m
      if s.length = 0 then
        ([c.typeName], m3)
      else
        let r := enemyLoopAux fuel m3
        (c.typeName :: r.1, r.2)

/-- The enemy card-playing loop at its call site, where the fuel is the
enemy hand size. -/
def enemyLoop (m : HearthModel) : List String × HearthModel :=
  enemyLoopAux m.enemy.hand.length m

/-- `HearthModel.end_turn`: sweep the player's minions, run the enemy's
`new_turn`, return immediately with no played cards if the enemy hero is
then dead; otherwise run the enemy card-playing loop, sweep the enemy's
minions, run the player's `new_turn`, and return the names of the cards
the enemy played. -/
def endTurn (m : HearthModel) : List String × HearthModel :=
  let m1 := sweepMinions true m.playerMinions m
  let m2 := { m1 with enemy := m1.enemy.newTurn }
  if !m2.enemy.isAlive then
    ([], m2)
  else
    let r := enemyLoop m2
    let m4 := sweepMinions false r.2.enemyMinions r.2
    (r.1, { m4 with player := m4.player.newTurn })

/-! ## The snapshot serializer

`HearthModel.__str__` (with `Hero.__str__`, `CardDeck.__str__` and
`_get_minion_info`) and the decoding half
`Hearthstone._generate_cards` / `_generate_hero` / `_generate_minions` /
`load_game`, over `List Char` strings. -/

/-- The decimal digit character of `n < 10` (how Python's `str` renders
one digit). -/
def digitChar : Nat → Char
  | 0 => '0'
  | 1 => '1'
  | 2 => '2'
  | 3 => '3'
  | 4 => '4'
  | 5 => '5'
  | 6 => '6'
  | 7 => '7'
  | 8 => '8'
  | _ => '9'

/-- Decimal digits of `n`, most significant first, with fuel (one digit is
emitted per fuel step, and `n` has at most `n + 1` digits). -/
def natDigitsAux : Nat → Nat → List Char
  | 0, _ => []
  | fuel + 1, n =>
    if n < 10 then [digitChar n]
    else natDigitsAux fuel (n / 10) ++ [digitChar (n % 10)]

/-- Python `str` of a natural number. -/
def natRepr (n : Nat) : List Char := natDigitsAux (n + 1) n

/-- Python `str` of an `int`: a minus sign before the digits when
negative. -/
def intRepr (i : Int) : List Char :=
  if i < 0 then '-' :: natRepr (-i).toNat else natRepr i.toNat

/-- Decimal digit test for one character. -/
def isDigitChar (c : Char) : Bool := '0' ≤ c && c ≤ '9'

/-- Python `str.isdigit` (the guard `_symbol.isdigit()` of
`_generate_cards`): non-empty and all digits. -/
def pyIsDigit (s : List Char) : Bool := !s.isEmpty && s.all isDigitChar

/-- Numeric value of a digit character. -/
def charVal (c : Char) : Nat := c.toNat - 48

/-- Python `int(...)` on an unsigned digit string (as produced by this
serializer); `none` models the `ValueError` on anything else. -/
def parseNat (s : List Char) : Option Nat :=
  if pyIsDigit s then some (s.foldl (fun a c => a * 10 + charVal c) 0)
  else none

/-- Python `int(...)` on a possibly-signed decimal string. -/
def parseInt (s : List Char) : Option Int :=
  match s with
  | '-' :: rest =>
    match parseNat rest with
    | some n => some (-(n : Int))
    | none => none
  | _ =>
    match parseNat s with
    | some n => some ((n : Int))
    | none => none

/-- Python `str.split(sep)` for a one-character separator: splitting the
empty string gives `[""]`, and every separator occurrence starts a new
(possibly empty) part. -/
def splitOn (sep : Char) : List Char → List (List Char)
  | [] => [[]]
  | c :: rest =>
    let r := splitOn sep rest
    if c = sep then [] :: r
    else
      match r with
      | [] => [[c]]
      | x :: xs => (c :: x) :: xs

/-- Python `sep.join(parts)` for a one-character separator. -/
def joinSep (sep : Char) : List (List Char) → List Char
  | [] => []
  | [x] => x
  | x :: rest => x ++ sep :: joinSep sep rest

/-- `get_symbol` of a minion variant (`MINION_SYMBOL`, `WYRM_SYMBOL`,
`RAPTOR_SYMBOL`). -/
def minionSymbol : MinionVariant → Char
  | .generic => 'M'
  | .wyrm => 'W'
  | .raptor => 'R'

/-- `get_symbol` of a card; a Fireball's symbol is the decimal rendering
of its turn counter. -/
def Card.symbol : Card → List Char
  | .basic => ['C']
  | .shield => ['S']
  | .heal => ['H']
  | .fireball t => natRepr t
  | .minionCard d => [minionSymbol d.variant]

/-- `Hero.__str__`:
`health,shield,energy_capacity;deck symbols;hand symbols` (the current
energy is not stored). -/
def heroStr (h : Hero) : List Char :=
  intRepr h.health ++ ',' :: intRepr h.shield ++
    ',' :: intRepr h.energyCapacity ++
    ';' :: joinSep ',' (h.deck.map Card.symbol) ++
    ';' :: joinSep ',' (h.hand.map Card.symbol)

/-- The minion objects a roster's references denote, in slot order (the
list `_get_minion_info` iterates). -/
def rosterDatas (ids : List Nat) (store : List MinionData) :
    List MinionData :=
  ids.filterMap fun i => store.get? i

/-- One `symbol,health,shield` triple of `_get_minion_info`. -/
def minionInfoOf (d : MinionData) : List Char :=
  minionSymbol d.variant :: ',' :: intRepr d.health ++ ',' :: intRepr d.shield

/-- `HearthModel._get_minion_info`: semicolon-separated triples of the
roster's minions in slot order. -/
def minionInfo (ids : List Nat) (store : List MinionData) : List Char :=
  joinSep ';' ((rosterDatas ids store).map minionInfoOf)

/-- `HearthModel.__str__`: the four pipe-delimited components. -/
def modelStr (m : HearthModel) : List Char :=
  heroStr m.player ++ '|' :: minionInfo m.playerMinions m.store ++
    '|' :: heroStr m.enemy ++ '|' :: minionInfo m.enemyMinions m.store

/-- One branch chain of `Hearthstone._generate_cards`: the card built from
one symbol, `none` when no branch matches (Python silently skips such
symbols).  Minions drawn from a symbol spawn with health 1 and
shield 0. -/
def generateCard (s : List Char) : Option Card :=
  if s = ['C'] then some .basic
  else if s = ['S'] then some .shield
  else if s = ['H'] then some .heal
  else if pyIsDigit s then (parseNat s).map .fireball
  else if s = ['M'] then some (.minionCard ⟨.generic, 1, 0⟩)
  else if s = ['R'] then some (.minionCard ⟨.raptor, 1, 0⟩)
  else if s = ['W'] then some (.minionCard ⟨.wyrm, 1, 0⟩)
  else none

/-- `Hearthstone._generate_cards` on an already comma-split symbol
list. -/
def generateCards (symbols : List (List Char)) : List Card :=
  symbols.filterMap generateCard

/-- `Hearthstone._generate_hero`: split on `;` into exactly three parts
(stats, deck, hand), the stats on `,` into exactly three integers; the
constructed hero's energy is its capacity.  `none` models the exceptions
Python raises on any other shape. -/
def generateHero (s : List Char) : Option Hero :=
  match splitOn ';' s with
  | [stats, deckS, handS] =>
    match splitOn ',' stats with
    | [hS, shS, enS] =>
      match parseInt hS, parseInt shS, parseInt enS with
      | some h, some sh, some en =>
        some { health := h, shield := sh, energyCapacity := en, energy := en,
               deck := generateCards (splitOn ',' deckS),
               hand := generateCards (splitOn ',' handS) }
      | _, _, _ => none
    | _ => none
  | _ => none

/-- Python `str.strip()` (used by the emptiness guard of
`_generate_minions`). -/
def pyStrip (s : List Char) : List Char :=
  ((s.dropWhile Char.isWhitespace).reverse.dropWhile Char.isWhitespace).reverse

/-- The per-triple body of `_generate_minions`: each `symbol,health,shield`
triple must split into exactly three parts with integer stats (else the
whole load raises, modelled by `none`); a triple whose symbol matches no
minion branch is silently skipped. -/
def generateMinionList : List (List Char) → Option (List MinionData)
  | [] => some []
  | t :: ts =>
    match splitOn ',' t with
    | [symS, hS, shS] =>
      match parseInt hS, parseInt shS with
      | some h, some sh =>
        match generateMinionList ts with
        | none => none
        | some rest =>
          if symS = ['M'] then some (⟨.generic, h, sh⟩ :: rest)
          else if symS = ['R'] then some (⟨.raptor, h, sh⟩ :: rest)
          else if symS = ['W'] then some (⟨.wyrm, h, sh⟩ :: rest)
          else some rest
      | _, _ => none
    | _ => none

/-- `Hearthstone._generate_minions`: the empty (up to whitespace) string
is an empty roster; otherwise the string splits on `;` into triples. -/
def generateMinions (s : List Char) : Option (List MinionData) :=
  if pyStrip s = [] then some [] else generateMinionList (splitOn ';' s)

/-- Constructing a `HearthModel` from decoded heroes and fresh minion
objects: the loaded minions are allocated consecutively in a fresh store
(player roster first), mirroring the fresh objects `load_game` builds. -/
def mkModel (p : Hero) (pm : List MinionData) (e : Hero)
    (em : List MinionData) : HearthModel :=
  { player := p
    enemy := e
    playerMinions := List.range pm.length
    enemyMinions := (List.range em.length).map (· + pm.length)
    store := pm ++ em }

/-- `Hearthstone.load_game` on the first line of the save file: split on
`|` and build the model from the first four components (Python indexes
`[0]`…`[3]`, ignoring any further parts); `none` models the exceptions on
malformed data. -/
def loadModel (s : List Char) : Option HearthModel :=
  match splitOn '|' s with
  | pS :: pmS :: eS :: emS :: _ =>
    match generateHero pS, generateMinions pmS,
        generateHero eS, generateMinions emS with
    | some p, some pm, some e, some em => some (mkModel p pm e em)
    | _, _, _, _ => none
  | _ => none

/-! ## Derived observations and reference definitions -/

/-- Modelled from the spec: the reference enemy play policy — repeatedly
scan the hand from the first card, play the first affordable card, and
restart the scan from the beginning of the hand after each success,
stopping when a full scan plays nothing (with the same fuel convention as
`enemyLoopAux`).  This definition follows the spec's words and exists only
to be compared with the loop embedded from the source. -/
def refPolicyAux : Nat → List Card → Int → List String
  | 0, _, _ => []
  | fuel + 1, hand, energy =>
    match findAffordable energy hand with
    | none => []
    | some (p, c, s) => c.typeName :: refPolicyAux fuel (p ++ s) (energy - (c.cost : Int))

/-- Modelled from the spec: the reference policy at the loop's fuel. -/
def refPolicy (hand : List Card) (energy : Int) : List String :=
  refPolicyAux hand.length hand energy

/-- The card `_generate_cards` rebuilds from a card's symbol: cards are
reproduced exactly, except that a minion card respawns with health 1 and
shield 0. -/
def regenCard : Card → Card
  | .minionCard d => .minionCard ⟨d.variant, 1, 0⟩
  | c => c

/-- The hero `_generate_hero` rebuilds from a hero's string: same stats,
energy reset to capacity, deck and hand rebuilt symbol by symbol. -/
def regenHero (h : Hero) : Hero :=
  { h with
    energy := h.energyCapacity
    deck := h.deck.map regenCard
    hand := h.hand.map regenCard }

/-- The observable `(symbol, health, shield)` triples of a roster in slot
order. -/
def rosterTriples (ids : List Nat) (store : List MinionData) :
    List (Char × Int × Int) :=
  (rosterDatas ids store).map fun d => (minionSymbol d.variant, d.health, d.shield)

/-! ## Concrete states used to witness the claims -/

/-- A hero whose hand already holds six cards and whose deck holds three:
`new_turn` on it hits `draw_cards(-1)`. -/
def heroOversized : Hero :=
  { health := 10, shield := 0, energyCapacity := 3, energy := 3,
    deck := [.basic, .shield, .heal],
    hand := [.basic, .basic, .basic, .basic, .basic, .basic] }

/-- A hero with a three-card hand holding a Fireball, used to witness the
amended turn-refresh law. -/
def heroRefresh : Hero :=
  { health := 9, shield := 1, energyCapacity := 2, energy := 0,
    deck := [.shield, .fireball 0, .heal, .minionCard ⟨.wyrm, 1, 0⟩],
    hand := [.fireball 2, .heal, .basic] }

/-- A state in which the player has won: the player's hero is alive and
the enemy's deck is exhausted. -/
def stateWon : HearthModel :=
  { player := { health := 5, shield := 0, energyCapacity := 2, energy := 2,
                deck := [.basic], hand := [] },
    enemy := { health := 5, shield := 0, energyCapacity := 2, energy := 2,
               deck := [], hand := [] },
    playerMinions := [], enemyMinions := [], store := [] }

/-- A state whose enemy cannot afford any card of its hand: three
Fireballs (cost 3 each) against energy 2. -/
def stateNoAfford : HearthModel :=
  { player := { health := 5, shield := 0, energyCapacity := 2, energy := 2,
                deck := [.basic], hand := [] },
    enemy := { health := 5, shield := 0, energyCapacity := 2, energy := 2,
               deck := [.basic], hand := [.fireball 5, .fireball 5, .fireball 5] },
    playerMinions := [], enemyMinions := [], store := [] }

/-- A state in which the player cannot afford the Heal in their hand. -/
def statePoor : HearthModel :=
  { player := { health := 5, shield := 0, energyCapacity := 3, energy := 1,
                deck := [.basic], hand := [.heal, .shield] },
    enemy := { health := 5, shield := 0, energyCapacity := 2, energy := 2,
               deck := [.basic], hand := [] },
    playerMinions := [], enemyMinions := [], store := [] }

/-- A state with a full player roster (five minions), used to witness the
slot-eviction law. -/
def stateFullRoster : HearthModel :=
  { player := { health := 5, shield := 0, energyCapacity := 3, energy := 3,
                deck := [.basic], hand := [.minionCard ⟨.raptor, 1, 0⟩] },
    enemy := { health := 5, shield := 0, energyCapacity := 2, energy := 2,
               deck := [.basic], hand := [] },
    playerMinions := [0, 1, 2, 3, 4], enemyMinions := [],
    store := [⟨.generic, 1, 0⟩, ⟨.generic, 2, 0⟩, ⟨.generic, 3, 0⟩,
              ⟨.generic, 4, 0⟩, ⟨.generic, 5, 0⟩] }

/-- A state whose enemy hero dies during its own `new_turn`: the enemy
hand is full, so nothing is drawn and its empty deck leaves it dead. -/
def stateEnemyExhausted : HearthModel :=
  { player := { health := 7, shield := 0, energyCapacity := 3, energy := 1,
                deck := [.heal, .shield], hand := [.basic] },
    enemy := { health := 9, shield := 2, energyCapacity := 2, energy := 2,
               deck := [],
               hand := [.basic, .basic, .basic, .basic, .basic] },
    playerMinions := [], enemyMinions := [], store := [] }

/-! ## Theorems -/

/-- C5: for every entity with health `h ≥ 0` and shield `s ≥ 0` and every
damage `d ≥ 0`, after `apply_damage(d)` the health equals
`max 0 (h - max 0 (d - s))`, the shield equals `max 0 (s - d)`, and the
health is never negative. -/
theorem apply_damage_clamps (h s d : Int) (hh : 0 ≤ h) (hs : 0 ≤ s)
    (hd : 0 ≤ d) :
    (applyDamage h s d).1 = max 0 (h - max 0 (d - s)) ∧
    (applyDamage h s d).2 = max 0 (s - d) ∧
    0 ≤ (applyDamage h s d).1 := by
  unfold applyDamage
  split
  · refine ⟨?_, ?_, ?_⟩ <;> dsimp only <;> omega
  · refine ⟨?_, ?_, ?_⟩ <;> dsimp only <;> (try split) <;> omega

/-- Witness for C5 at `h = 3`, `s = 2`, `d = 4`. -/
theorem apply_damage_clamps_witness :
    (applyDamage 3 2 4).1 = max 0 (3 - max 0 ((4 : Int) - 2)) ∧
    (applyDamage 3 2 4).2 = max 0 ((2 : Int) - 4) ∧
    0 ≤ (applyDamage 3 2 4).1 :=
  apply_damage_clamps 3 2 4 (by decide) (by decide) (by decide)

/-- C1 counterexample: no game state has `has_won()` and `has_lost()` both
true — `has_won` requires the player's hero alive, `has_lost` is exactly
its negation. -/
theorem win_loss_never_simultaneous :
    ¬ ∃ m : HearthModel, hasWon m = true ∧ hasLost m = true := by
  rintro ⟨m, hw, hl⟩
  unfold hasWon at hw
  unfold hasLost at hl
  rw [Bool.and_eq_true, Bool.not_eq_true'] at hw
  rw [Bool.not_eq_true'] at hl
  rw [hl] at hw
  exact Bool.false_ne_true hw.1

/-- C1 (amended): simultaneous win and loss is NOT representable: in every
game state `has_won()` implies that `has_lost()` is false, because
`has_won()` is `player.is_alive() AND NOT enemy.is_alive()` while
`has_lost()` is `NOT player.is_alive()`. -/
theorem has_won_excludes_has_lost (m : HearthModel) (h : hasWon m = true) :
    hasLost m = false := by
  unfold hasWon at h
  rw [Bool.and_eq_true] at h
  unfold hasLost
  rw [Bool.not_eq_false']
  exact h.1

/-- Witness for C1's amended law at a concrete won state. -/
theorem has_won_excludes_has_lost_witness :
    hasWon stateWon = true ∧ hasLost stateWon = false :=
  ⟨by decide, has_won_excludes_has_lost stateWon (by decide)⟩

/-- C3 counterexample: a hero whose hand holds six cards (with a
three-card deck) draws two cards on `new_turn` — `draw_cards(5 - 6)`
follows Python's negative-slice semantics and removes all but the last
deck card — contradicting the claim that a hand of five or more cards
draws `max(0, 5 - |hand|) = 0` cards. -/
theorem new_turn_oversized_hand_draws :
    heroOversized.hand.length = 6 ∧
    heroOversized.newTurn.hand.length = 8 ∧
    heroOversized.newTurn.deck.length = 1 := by decide

/-- C3 (amended): for every hero whose hand holds at most five cards,
`new_turn` first increments every Fireball already in the hand, then draws
exactly `min(|deck|, 5 - |hand|)` cards from the front of the deck and
appends them in draw order (a just-drawn Fireball is not incremented), and
finally increments the energy capacity by one and refills the energy to
the new capacity; health and shield are untouched. -/
theorem new_turn_refreshes (h : Hero) (hlen : h.hand.length ≤ 5) :
    h.newTurn = { h with
      hand := h.hand.map incFireball ++ h.deck.take (5 - h.hand.length)
      deck := h.deck.drop (5 - h.hand.length)
      energyCapacity := h.energyCapacity + 1
      energy := h.energyCapacity + 1 } := by
  have hmap : (h.hand.map incFireball).length = h.hand.length :=
    List.length_map _ _
  have htn : ((5 : Int) - (h.hand.length : Int)).toNat = 5 - h.hand.length := by
    omega
  unfold Hero.newTurn drawCards
  dsimp only
  rw [hmap]
  by_cases hgt : (5 : Int) - (h.hand.length : Int) > (h.deck.length : Int)
  · rw [if_pos hgt]
    have hd : h.deck.length ≤ 5 - h.hand.length := by omega
    dsimp only
    rw [List.take_of_length_le hd, List.drop_eq_nil_of_le hd]
  · rw [if_neg hgt, if_neg (by omega : ¬ (5 : Int) - (h.hand.length : Int) < 0),
      htn]

/-- Witness for C3's amended law at a three-card hand holding a
Fireball. -/
theorem new_turn_refreshes_witness :
    heroRefresh.hand.length ≤ 5 ∧
    heroRefresh.newTurn = { heroRefresh with
      hand := heroRefresh.hand.map incFireball ++
        heroRefresh.deck.take (5 - heroRefresh.hand.length)
      deck := heroRefresh.deck.drop (5 - heroRefresh.hand.length)
      energyCapacity := heroRefresh.energyCapacity + 1
      energy := heroRefresh.energyCapacity + 1 } :=
  ⟨by decide, new_turn_refreshes heroRefresh (by decide)⟩

/-- C9: playing a card from the player's hand fails (returns `false`)
exactly when its cost exceeds the player's current energy, and a failed
play mutates nothing at all — the whole game state is returned unchanged
(the embedding of `play_card` is a total function: failure is signalled
only through the boolean). -/
theorem play_card_fail_iff (m : HearthModel) (c : Card) (t : Target)
    (hc : c ∈ m.player.hand) :
    ((playCard c t m).1 = false ↔ m.player.energy < (c.cost : Int)) ∧
    ((playCard c t m).1 = false → (playCard c t m).2 = m) := by
  by_cases hle : (c.cost : Int) ≤ m.player.energy
  · have h1 : (playCard c t m).1 = true := by
      unfold playCard Hero.spendEnergy
      rw [if_pos hle]
      dsimp only
      rw [if_pos rfl]
      cases c <;> rfl
    refine ⟨⟨fun hf => absurd h1 (by rw [hf]; exact Bool.false_ne_true),
      fun hlt => absurd hle (not_le.mpr hlt)⟩,
      fun hf => absurd h1 (by rw [hf]; exact Bool.false_ne_true)⟩
  · have h2 : playCard c t m = (false, m) := by
      unfold playCard Hero.spendEnergy
      rw [if_neg hle]
      dsimp only
      rw [if_neg Bool.false_ne_true]
    rw [h2]
    exact ⟨⟨fun _ => not_le.mp hle, fun _ => rfl⟩, fun _ => rfl⟩

/-- Witness for C9 at a state whose player cannot afford the Heal in their
hand. -/
theorem play_card_fail_iff_witness :
    Card.heal ∈ statePoor.player.hand ∧
    ((playCard .heal .player statePoor).1 = false ↔
      statePoor.player.energy < ((Card.heal).cost : Int)) :=
  ⟨by decide, (play_card_fail_iff statePoor .heal .player (by decide)).1⟩

/-- Case analysis of the `Wyrm.choose_target` loop: either no minion's
health is strictly below the running best, and the accumulator survives
untouched, or the loop returns the first minion attaining the strict
minimum. -/
theorem wyrmScan_cases (ms : List (Nat × Int)) (best : Option Nat)
    (bestH : Int) :
    (wyrmScan (best, bestH) ms = (best, bestH) ∧ ∀ p ∈ ms, bestH ≤ p.2) ∨
    (∃ k id h, ms.get? k = some (id, h) ∧
      wyrmScan (best, bestH) ms = (some id, h) ∧ h < bestH ∧
      (∀ q ∈ ms, h ≤ q.2) ∧
      (∀ j q, j < k → ms.get? j = some q → h < q.2)) := by
  induction ms generalizing best bestH with
  | nil => exact Or.inl ⟨rfl, by simp⟩
  | cons hd tl ih =>
    obtain ⟨id0, h0⟩ := hd
    have hstep : wyrmScan (best, bestH) ((id0, h0) :: tl) =
        if h0 < bestH then wyrmScan (some id0, h0) tl
        else wyrmScan (best, bestH) tl := rfl
    by_cases hlt : h0 < bestH
    · rw [if_pos hlt] at hstep
      rcases ih (some id0) h0 with ⟨heq, hall⟩ |
        ⟨k, id', h', hget, heq, hlt', hall, hleft⟩
      · refine Or.inr ⟨0, id0, h0, rfl, hstep.trans heq, hlt, ?_, ?_⟩
        · intro q hq
          rcases List.mem_cons.mp hq with h | h
          · rw [h]
          · exact hall q h
        · intro j q hj _
          omega
      · refine Or.inr ⟨k + 1, id', h', hget, hstep.trans heq, by omega, ?_, ?_⟩
        · intro q hq
          rcases List.mem_cons.mp hq with h | h
          · rw [h]; dsimp only; omega
          · exact hall q h
        · intro j q hj hq
          match j with
          | 0 =>
            rw [show ((id0, h0) :: tl).get? 0 = some (id0, h0) from rfl] at hq
            cases hq
            dsimp only
            omega
          | j' + 1 =>
            exact hleft j' q (by omega) hq
    · rw [if_neg hlt] at hstep
      rcases ih best bestH with ⟨heq, hall⟩ |
        ⟨k, id', h', hget, heq, hlt', hall, hleft⟩
      · refine Or.inl ⟨hstep.trans heq, ?_⟩
        intro q hq
        rcases List.mem_cons.mp hq with h | h
        · rw [h]; dsimp only; omega
        · exact hall q h
      · refine Or.inr ⟨k + 1, id', h', hget, hstep.trans heq, hlt', ?_, ?_⟩
        · intro q hq
          rcases List.mem_cons.mp hq with h | h
          · rw [h]; dsimp only; omega
          · exact hall q h
        · intro j q hj hq
          match j with
          | 0 =>
            rw [show ((id0, h0) :: tl).get? 0 = some (id0, h0) from rfl] at hq
            cases hq
            dsimp only
            omega
          | j' + 1 =>
            exact hleft j' q (by omega) hq

/-- C7: `Wyrm.choose_target` selects the allied entity with strictly
lowest health: the ally hero is chosen exactly when no ally minion's
health is strictly lower than the hero's (the hero wins all ties), and a
chosen minion is one strictly below the hero whose health is minimal,
every earlier minion being strictly higher (the leftmost minion wins
minion-vs-minion ties); with ally hero health 10 and ally minions of
health 10 and 10, the hero is selected. -/
theorem wyrm_targets_lowest :
    (∀ hh ms, wyrmChoose hh ms = none ↔ ∀ p ∈ ms, hh ≤ p.2) ∧
    (∀ hh ms i, wyrmChoose hh ms = some i →
      ∃ k h, ms.get? k = some (i, h) ∧ h < hh ∧
        (∀ q ∈ ms, h ≤ q.2) ∧
        (∀ j q, j < k → ms.get? j = some q → h < q.2)) ∧
    wyrmChoose 10 [(0, 10), (1, 10)] = none := by
  refine ⟨?_, ?_, by decide⟩
  · intro hh ms
    constructor
    · intro hnone
      rcases wyrmScan_cases ms none hh with ⟨_, hall⟩ |
        ⟨k, id', h', _, heq, _, _, _⟩
      · exact hall
      · unfold wyrmChoose at hnone
        rw [heq] at hnone
        cases hnone
    · intro hall
      rcases wyrmScan_cases ms none hh with ⟨heq, _⟩ |
        ⟨k, id', h', hget, heq, hlt, _, _⟩
      · unfold wyrmChoose
        rw [heq]
      · exact absurd (hall _ (List.get?_mem hget)) (by dsimp only; omega)
  · intro hh ms i hsome
    rcases wyrmScan_cases ms none hh with ⟨heq, _⟩ |
      ⟨k, id', h', hget, heq, hlt, hall, hleft⟩
    · unfold wyrmChoose at hsome
      rw [heq] at hsome
      cases hsome
    · unfold wyrmChoose at hsome
      rw [heq] at hsome
      cases hsome
      exact ⟨k, h', hget, hlt, hall, hleft⟩

/-- Witness for C7 at hero health 10 and minion healths `[5, 3, 3]`: the
minion at index 1 (reference 6) is chosen. -/
theorem wyrm_targets_lowest_witness :
    wyrmChoose 10 [(5, 5), (6, 3), (7, 3)] = some 6 ∧
    ∃ k h, [((5 : Nat), (5 : Int)), (6, 3), (7, 3)].get? k = some (6, h) ∧
      h < 10 ∧
      (∀ q ∈ [((5 : Nat), (5 : Int)), (6, 3), (7, 3)], h ≤ q.2) ∧
      (∀ j q, j < k → [((5 : Nat), (5 : Int)), (6, 3), (7, 3)].get? j = some q →
        h < q.2) :=
  ⟨by decide, wyrm_targets_lowest.2.1 10 [(5, 5), (6, 3), (7, 3)] 6 (by decide)⟩

/-- Case analysis of the `Raptor.choose_target` loop: either no element
beats the seed, which survives, or the loop returns the first element
attaining the strict maximum. -/
theorem raptorScan_cases (ms : List (Nat × Int)) (bid : Nat) (bh : Int) :
    (raptorScan (bid, bh) ms = (bid, bh) ∧ ∀ p ∈ ms, p.2 ≤ bh) ∨
    (∃ k id h, ms.get? k = some (id, h) ∧
      raptorScan (bid, bh) ms = (id, h) ∧ bh < h ∧
      (∀ q ∈ ms, q.2 ≤ h) ∧
      (∀ j q, j < k → ms.get? j = some q → q.2 < h)) := by
  induction ms generalizing bid bh with
  | nil => exact Or.inl ⟨rfl, by simp⟩
  | cons hd tl ih =>
    obtain ⟨id0, h0⟩ := hd
    have hstep : raptorScan (bid, bh) ((id0, h0) :: tl) =
        if h0 > bh then raptorScan (id0, h0) tl
        else raptorScan (bid, bh) tl := rfl
    by_cases hgt : h0 > bh
    · rw [if_pos hgt] at hstep
      rcases ih id0 h0 with ⟨heq, hall⟩ |
        ⟨k, id', h', hget, heq, hgt', hall, hleft⟩
      · refine Or.inr ⟨0, id0, h0, rfl, hstep.trans heq, hgt, ?_, ?_⟩
        · intro q hq
          rcases List.mem_cons.mp hq with h | h
          · rw [h]
          · exact hall q h
        · intro j q hj _
          omega
      · refine Or.inr ⟨k + 1, id', h', hget, hstep.trans heq, by omega, ?_, ?_⟩
        · intro q hq
          rcases List.mem_cons.mp hq with h | h
          · rw [h]; dsimp only; omega
          · exact hall q h
        · intro j q hj hq
          match j with
          | 0 =>
            rw [show ((id0, h0) :: tl).get? 0 = some (id0, h0) from rfl] at hq
            cases hq
            dsimp only
            omega
          | j' + 1 =>
            exact hleft j' q (by omega) hq
    · rw [if_neg hgt] at hstep
      rcases ih bid bh with ⟨heq, hall⟩ |
        ⟨k, id', h', hget, heq, hgt', hall, hleft⟩
      · refine Or.inl ⟨hstep.trans heq, ?_⟩
        intro q hq
        rcases List.mem_cons.mp hq with h | h
        · rw [h]; dsimp only; omega
        · exact hall q h
      · refine Or.inr ⟨k + 1, id', h', hget, hstep.trans heq, hgt', ?_, ?_⟩
        · intro q hq
          rcases List.mem_cons.mp hq with h | h
          · rw [h]; dsimp only; omega
          · exact hall q h
        · intro j q hj hq
          match j with
          | 0 =>
            rw [show ((id0, h0) :: tl).get? 0 = some (id0, h0) from rfl] at hq
            cases hq
            dsimp only
            omega
          | j' + 1 =>
            exact hleft j' q (by omega) hq

/-- C8: `Raptor.choose_target` returns the enemy hero exactly when the
enemy minion list is empty; on a non-empty list it returns a minion whose
health is maximal and whose earlier neighbours are all strictly lower
(the first element seeds the maximum and later elements replace it only
on strictly greater health, so the leftmost of tied maxima wins); with
healths `[3, 7, 7, 2]` the minion at index 1 is selected. -/
theorem raptor_targets_highest :
    raptorChoose [] = none ∧
    (∀ ms : List (Nat × Int), ms ≠ [] → (raptorChoose ms).isSome) ∧
    (∀ ms i, raptorChoose ms = some i →
      ∃ k h, ms.get? k = some (i, h) ∧
        (∀ q ∈ ms, q.2 ≤ h) ∧
        (∀ j q, j < k → ms.get? j = some q → q.2 < h)) ∧
    raptorChoose [(0, 3), (1, 7), (2, 7), (3, 2)] = some 1 := by
  refine ⟨rfl, ?_, ?_, by decide⟩
  · intro ms hne
    match ms with
    | [] => exact absurd rfl hne
    | f :: t => rfl
  · intro ms i hsome
    match ms with
    | [] => cases hsome
    | (fid, fh) :: t =>
      rcases raptorScan_cases ((fid, fh) :: t) fid fh with ⟨heq, hall⟩ |
        ⟨k, id', h', hget, heq, hgt, hall, hleft⟩
      · unfold raptorChoose at hsome
        dsimp only at hsome
        rw [heq] at hsome
        cases hsome
        exact ⟨0, fh, rfl, hall, fun j q hj _ => absurd hj (by omega)⟩
      · unfold raptorChoose at hsome
        dsimp only at hsome
        rw [heq] at hsome
        cases hsome
        exact ⟨k, h', hget, hall, hleft⟩

/-- Witness for C8 at healths `[3, 7, 7, 2]`: the minion at index 1 is
the leftmost of the tied maxima. -/
theorem raptor_targets_highest_witness :
    raptorChoose [(0, 3), (1, 7), (2, 7), (3, 2)] = some 1 ∧
    ∃ k h, [((0 : Nat), (3 : Int)), (1, 7), (2, 7), (3, 2)].get? k = some (1, h) ∧
      (∀ q ∈ [((0 : Nat), (3 : Int)), (1, 7), (2, 7), (3, 2)], q.2 ≤ h) ∧
      (∀ j q, j < k →
        [((0 : Nat), (3 : Int)), (1, 7), (2, 7), (3, 2)].get? j = some q →
        q.2 < h) :=
  ⟨by decide,
    raptor_targets_highest.2.2.1 [(0, 3), (1, 7), (2, 7), (3, 2)] 1 (by decide)⟩

/-! ### Frame lemmas for effect resolution -/

/-- `apply_*` calls mutate only health and shield of a hero, and
`_remove_defeated_minions` never touches a hero: the economy fields of
both heroes survive one `applyToTarget`. -/
theorem applyToTarget_player_econ (e : Effect) (t : Target) (m : HearthModel) :
    (applyToTarget e t m).player.hand = m.player.hand ∧
    (applyToTarget e t m).player.deck = m.player.deck ∧
    (applyToTarget e t m).player.energy = m.player.energy ∧
    (applyToTarget e t m).player.energyCapacity = m.player.energyCapacity := by
  unfold applyToTarget
  cases t with
  | player => exact ⟨rfl, rfl, rfl, rfl⟩
  | enemy => exact ⟨rfl, rfl, rfl, rfl⟩
  | minion id =>
    dsimp only
    cases m.store.get? id <;> exact ⟨rfl, rfl, rfl, rfl⟩

/-- The enemy half of `applyToTarget_player_econ`. -/
theorem applyToTarget_enemy_econ (e : Effect) (t : Target) (m : HearthModel) :
    (applyToTarget e t m).enemy.hand = m.enemy.hand ∧
    (applyToTarget e t m).enemy.deck = m.enemy.deck ∧
    (applyToTarget e t m).enemy.energy = m.enemy.energy ∧
    (applyToTarget e t m).enemy.energyCapacity = m.enemy.energyCapacity := by
  unfold applyToTarget
  cases t with
  | player => exact ⟨rfl, rfl, rfl, rfl⟩
  | enemy => exact ⟨rfl, rfl, rfl, rfl⟩
  | minion id =>
    dsimp only
    cases m.store.get? id <;> exact ⟨rfl, rfl, rfl, rfl⟩

/-- `applyToTarget` never changes the rosters. -/
theorem applyToTarget_rosters (e : Effect) (t : Target) (m : HearthModel) :
    (applyToTarget e t m).playerMinions = m.playerMinions ∧
    (applyToTarget e t m).enemyMinions = m.enemyMinions := by
  unfold applyToTarget
  cases t with
  | player => exact ⟨rfl, rfl⟩
  | enemy => exact ⟨rfl, rfl⟩
  | minion id =>
    dsimp only
    cases m.store.get? id <;> exact ⟨rfl, rfl⟩

/-- `_use_effect` preserves the player's economy fields. -/
theorem useEffect_player_econ (e : Effect) (t : Target) (m : HearthModel) :
    (useEffect e t m).player.hand = m.player.hand ∧
    (useEffect e t m).player.deck = m.player.deck ∧
    (useEffect e t m).player.energy = m.player.energy ∧
    (useEffect e t m).player.energyCapacity = m.player.energyCapacity :=
  applyToTarget_player_econ e t (removeDefeated m)

/-- `_use_effect` preserves the enemy's economy fields. -/
theorem useEffect_enemy_econ (e : Effect) (t : Target) (m : HearthModel) :
    (useEffect e t m).enemy.hand = m.enemy.hand ∧
    (useEffect e t m).enemy.deck = m.enemy.deck ∧
    (useEffect e t m).enemy.energy = m.enemy.energy ∧
    (useEffect e t m).enemy.energyCapacity = m.enemy.energyCapacity :=
  applyToTarget_enemy_econ e t (removeDefeated m)

/-- Pruning only removes minions: both rosters can only shrink. -/
theorem removeDefeated_len (m : HearthModel) :
    (removeDefeated m).playerMinions.length ≤ m.playerMinions.length ∧
    (removeDefeated m).enemyMinions.length ≤ m.enemyMinions.length :=
  ⟨List.length_filter_le _ _, List.length_filter_le _ _⟩

/-- `_use_effect` only ever shrinks the rosters. -/
theorem useEffect_rosters_le (e : Effect) (t : Target) (m : HearthModel) :
    (useEffect e t m).playerMinions.length ≤ m.playerMinions.length ∧
    (useEffect e t m).enemyMinions.length ≤ m.enemyMinions.length := by
  have a := removeDefeated_len (applyToTarget e t (removeDefeated m))
  have b := applyToTarget_rosters e t (removeDefeated m)
  have c := removeDefeated_len m
  unfold useEffect
  rw [b.1] at a
  rw [b.2] at a
  exact ⟨le_trans a.1 c.1, le_trans a.2 c.2⟩

/-- One acting minion preserves the player's economy fields. -/
theorem actMinion_player_econ (ps : Bool) (id : Nat) (m : HearthModel) :
    (actMinion ps id m).player.hand = m.player.hand ∧
    (actMinion ps id m).player.deck = m.player.deck ∧
    (actMinion ps id m).player.energy = m.player.energy ∧
    (actMinion ps id m).player.energyCapacity = m.player.energyCapacity := by
  unfold actMinion
  cases m.store.get? id with
  | none => exact ⟨rfl, rfl, rfl, rfl⟩
  | some d => exact useEffect_player_econ _ _ m

/-- One acting minion preserves the enemy's economy fields. -/
theorem actMinion_enemy_econ (ps : Bool) (id : Nat) (m : HearthModel) :
    (actMinion ps id m).enemy.hand = m.enemy.hand ∧
    (actMinion ps id m).enemy.deck = m.enemy.deck ∧
    (actMinion ps id m).enemy.energy = m.enemy.energy ∧
    (actMinion ps id m).enemy.energyCapacity = m.enemy.energyCapacity := by
  unfold actMinion
  cases m.store.get? id with
  | none => exact ⟨rfl, rfl, rfl, rfl⟩
  | some d => exact useEffect_enemy_econ _ _ m

/-- One acting minion only ever shrinks the rosters. -/
theorem actMinion_rosters_le (ps : Bool) (id : Nat) (m : HearthModel) :
    (actMinion ps id m).playerMinions.length ≤ m.playerMinions.length ∧
    (actMinion ps id m).enemyMinions.length ≤ m.enemyMinions.length := by
  unfold actMinion
  cases m.store.get? id with
  | none => exact ⟨le_refl _, le_refl _⟩
  | some d => exact useEffect_rosters_le _ _ m

/-- A whole minion sweep preserves the player's economy fields. -/
theorem sweepMinions_player_econ (ps : Bool) (order : List Nat)
    (m : HearthModel) :
    (sweepMinions ps order m).player.hand = m.player.hand ∧
    (sweepMinions ps order m).player.deck = m.player.deck ∧
    (sweepMinions ps order m).player.energy = m.player.energy ∧
    (sweepMinions ps order m).player.energyCapacity =
      m.player.energyCapacity := by
  induction order generalizing m with
  | nil => exact ⟨rfl, rfl, rfl, rfl⟩
  | cons a t ih =>
    have hstep : sweepMinions ps (a :: t) m =
        sweepMinions ps t (actMinion ps a m) := rfl
    rw [hstep]
    obtain ⟨h1, h2, h3, h4⟩ := ih (actMinion ps a m)
    obtain ⟨g1, g2, g3, g4⟩ := actMinion_player_econ ps a m
    exact ⟨h1.trans g1, h2.trans g2, h3.trans g3, h4.trans g4⟩

/-- A whole minion sweep preserves the enemy's economy fields. -/
theorem sweepMinions_enemy_econ (ps : Bool) (order : List Nat)
    (m : HearthModel) :
    (sweepMinions ps order m).enemy.hand = m.enemy.hand ∧
    (sweepMinions ps order m).enemy.deck = m.enemy.deck ∧
    (sweepMinions ps order m).enemy.energy = m.enemy.energy ∧
    (sweepMinions ps order m).enemy.energyCapacity =
      m.enemy.energyCapacity := by
  induction order generalizing m with
  | nil => exact ⟨rfl, rfl, rfl, rfl⟩
  | cons a t ih =>
    have hstep : sweepMinions ps (a :: t) m =
        sweepMinions ps t (actMinion ps a m) := rfl
    rw [hstep]
    obtain ⟨h1, h2, h3, h4⟩ := ih (actMinion ps a m)
    obtain ⟨g1, g2, g3, g4⟩ := actMinion_enemy_econ ps a m
    exact ⟨h1.trans g1, h2.trans g2, h3.trans g3, h4.trans g4⟩

/-- A whole minion sweep only ever shrinks the rosters. -/
theorem sweepMinions_rosters_le (ps : Bool) (order : List Nat)
    (m : HearthModel) :
    (sweepMinions ps order m).playerMinions.length ≤
      m.playerMinions.length ∧
    (sweepMinions ps order m).enemyMinions.length ≤
      m.enemyMinions.length := by
  induction order generalizing m with
  | nil => exact ⟨le_refl _, le_refl _⟩
  | cons a t ih =>
    have hstep : sweepMinions ps (a :: t) m =
        sweepMinions ps t (actMinion ps a m) := rfl
    rw [hstep]
    obtain ⟨h1, h2⟩ := ih (actMinion ps a m)
    obtain ⟨g1, g2⟩ := actMinion_rosters_le ps a m
    exact ⟨le_trans h1 g1, le_trans h2 g2⟩

/-- Slot insertion keeps a roster within five minions. -/
theorem insertMinion_len (d : MinionData) (roster : List Nat)
    (store : List MinionData) (h : roster.length ≤ 5) :
    (insertMinion d roster store).1.length ≤ 5 := by
  unfold insertMinion
  dsimp only
  split
  · rw [List.length_append, List.length_tail]
    simp only [List.length_singleton]
    omega
  · rw [List.length_append]
    simp only [List.length_singleton]
    have : roster.length ≠ 5 := by assumption
    omega

/-- The enemy's play of one card preserves its own hand and energy (only
`spend_energy` and the hand removal, modelled outside `playEnemyCard`,
touch them). -/
theorem playEnemyCard_enemy_econ (c : Card) (m : HearthModel) :
    (playEnemyCard c m).enemy.hand = m.enemy.hand ∧
    (playEnemyCard c m).enemy.energy = m.enemy.energy := by
  unfold playEnemyCard
  cases c with
  | minionCard d => exact ⟨rfl, rfl⟩
  | basic =>
    exact ⟨(useEffect_enemy_econ _ .enemy m).1,
      (useEffect_enemy_econ _ .enemy m).2.2.1⟩
  | shield =>
    exact ⟨(useEffect_enemy_econ _ .enemy m).1,
      (useEffect_enemy_econ _ .enemy m).2.2.1⟩
  | heal =>
    exact ⟨(useEffect_enemy_econ _ .enemy m).1,
      (useEffect_enemy_econ _ .enemy m).2.2.1⟩
  | fireball t =>
    exact ⟨(useEffect_enemy_econ _ .player m).1,
      (useEffect_enemy_econ _ .player m).2.2.1⟩

/-- The enemy's play of one card keeps both rosters within five
minions. -/
theorem playEnemyCard_rosters_le (c : Card) (m : HearthModel)
    (hp : m.playerMinions.length ≤ 5) (he : m.enemyMinions.length ≤ 5) :
    (playEnemyCard c m).playerMinions.length ≤ 5 ∧
    (playEnemyCard c m).enemyMinions.length ≤ 5 := by
  unfold playEnemyCard
  cases c with
  | minionCard d => exact ⟨hp, insertMinion_len d m.enemyMinions m.store he⟩
  | basic =>
    exact ⟨le_trans (useEffect_rosters_le _ .enemy m).1 hp,
      le_trans (useEffect_rosters_le _ .enemy m).2 he⟩
  | shield =>
    exact ⟨le_trans (useEffect_rosters_le _ .enemy m).1 hp,
      le_trans (useEffect_rosters_le _ .enemy m).2 he⟩
  | heal =>
    exact ⟨le_trans (useEffect_rosters_le _ .enemy m).1 hp,
      le_trans (useEffect_rosters_le _ .enemy m).2 he⟩
  | fireball t =>
    exact ⟨le_trans (useEffect_rosters_le _ .player m).1 hp,
      le_trans (useEffect_rosters_le _ .player m).2 he⟩

/-- One successful enemy play leaves the post-removal hand and the spent
energy in the enemy hero. -/
theorem enemyPlayStep_econ (c : Card) (p s : List Card) (m : HearthModel) :
    (enemyPlayStep c p s m).enemy.hand = p ++ s ∧
    (enemyPlayStep c p s m).enemy.energy =
      m.enemy.energy - (c.cost : Int) := by
  constructor
  · rfl
  · exact (playEnemyCard_enemy_econ c { m with
      enemy := { m.enemy with
        energy := m.enemy.energy - (c.cost : Int) } }).2

/-- One successful enemy play keeps both rosters within five minions. -/
theorem enemyPlayStep_rosters_le (c : Card) (p s : List Card)
    (m : HearthModel) (hp : m.playerMinions.length ≤ 5)
    (he : m.enemyMinions.length ≤ 5) :
    (enemyPlayStep c p s m).playerMinions.length ≤ 5 ∧
    (enemyPlayStep c p s m).enemyMinions.length ≤ 5 :=
  playEnemyCard_rosters_le c { m with
    enemy := { m.enemy with
      energy := m.enemy.energy - (c.cost : Int) } } hp he

/-- The enemy card-playing loop keeps both rosters within five
minions. -/
theorem enemyLoopAux_rosters_le (fuel : Nat) :
    ∀ m : HearthModel, m.playerMinions.length ≤ 5 →
      m.enemyMinions.length ≤ 5 →
      (enemyLoopAux fuel m).2.playerMinions.length ≤ 5 ∧
      (enemyLoopAux fuel m).2.enemyMinions.length ≤ 5 := by
  induction fuel with
  | zero => exact fun m hp he => ⟨hp, he⟩
  | succ f ih =>
    intro m hp he
    unfold enemyLoopAux
    cases hf : findAffordable m.enemy.energy m.enemy.hand with
    | none => exact ⟨hp, he⟩
    | some w =>
      obtain ⟨p, c, s⟩ := w
      dsimp only
      have hplay := enemyPlayStep_rosters_le c p s m hp he
      by_cases hs : s.length = 0
      · rw [if_pos hs]
        exact hplay
      · rw [if_neg hs]
        exact ih _ hplay.1 hplay.2

/-- C6: inserting a permanent minion into a full five-slot roster evicts
the slot-0 minion and shifts the rest left before appending the new
minion's reference at the end; inserting into a roster of fewer than five
simply appends; and starting from rosters of at most five minions, both
`play_card` and `end_turn` leave both rosters with at most five
minions. -/
theorem minion_slot_invariant :
    (∀ (d : MinionData) (roster : List Nat) (store : List MinionData),
      roster.length = 5 →
      insertMinion d roster store =
        (roster.tail ++ [store.length], store ++ [d])) ∧
    (∀ (d : MinionData) (roster : List Nat) (store : List MinionData),
      roster.length < 5 →
      insertMinion d roster store =
        (roster ++ [store.length], store ++ [d])) ∧
    (∀ (m : HearthModel) (c : Card) (t : Target),
      m.playerMinions.length ≤ 5 → m.enemyMinions.length ≤ 5 →
      (playCard c t m).2.playerMinions.length ≤ 5 ∧
      (playCard c t m).2.enemyMinions.length ≤ 5) ∧
    (∀ m : HearthModel,
      m.playerMinions.length ≤ 5 → m.enemyMinions.length ≤ 5 →
      (endTurn m).2.playerMinions.length ≤ 5 ∧
      (endTurn m).2.enemyMinions.length ≤ 5) := by
  refine ⟨?_, ?_, ?_, ?_⟩
  · intro d roster store h
    unfold insertMinion
    rw [if_pos h]
  · intro d roster store h
    unfold insertMinion
    rw [if_neg (by omega : ¬ roster.length = 5)]
  · intro m c t hp he
    by_cases hle : (c.cost : Int) ≤ m.player.energy
    · unfold playCard Hero.spendEnergy
      rw [if_pos hle]
      dsimp only
      rw [if_pos rfl]
      cases c with
      | minionCard d =>
        exact ⟨insertMinion_len d m.playerMinions m.store hp, he⟩
      | basic =>
        exact ⟨le_trans (useEffect_rosters_le _ _ _).1 hp,
          le_trans (useEffect_rosters_le _ _ _).2 he⟩
      | shield =>
        exact ⟨le_trans (useEffect_rosters_le _ _ _).1 hp,
          le_trans (useEffect_rosters_le _ _ _).2 he⟩
      | heal =>
        exact ⟨le_trans (useEffect_rosters_le _ _ _).1 hp,
          le_trans (useEffect_rosters_le _ _ _).2 he⟩
      | fireball t' =>
        exact ⟨le_trans (useEffect_rosters_le _ _ _).1 hp,
          le_trans (useEffect_rosters_le _ _ _).2 he⟩
    · unfold playCard Hero.spendEnergy
      rw [if_neg hle]
      dsimp only
      rw [if_neg Bool.false_ne_true]
      exact ⟨hp, he⟩
  · intro m hp he
    have h1 := sweepMinions_rosters_le true m.playerMinions m
    unfold endTurn
    dsimp only
    cases hal : (sweepMinions true m.playerMinions m).enemy.newTurn.isAlive with
    | false =>
      simp only [Bool.not_false]
      rw [if_pos trivial]
      exact ⟨le_trans h1.1 hp, le_trans h1.2 he⟩
    | true =>
      simp only [Bool.not_true]
      rw [if_neg Bool.false_ne_true]
      dsimp only
      have h2 := enemyLoopAux_rosters_le
          (sweepMinions true m.playerMinions m).enemy.newTurn.hand.length
          { sweepMinions true m.playerMinions m with
            enemy := (sweepMinions true m.playerMinions m).enemy.newTurn }
          (le_trans h1.1 hp) (le_trans h1.2 he)
      have h3 := sweepMinions_rosters_le false
        (enemyLoop { sweepMinions true m.playerMinions m with
          enemy := (sweepMinions true m.playerMinions m).enemy.newTurn }).2.enemyMinions
        (enemyLoop { sweepMinions true m.playerMinions m with
          enemy := (sweepMinions true m.playerMinions m).enemy.newTurn }).2
      exact ⟨le_trans h3.1 h2.1, le_trans h3.2 h2.2⟩

/-- Witness for C6: a full player roster evicting slot 0 on a Raptor
play, and the bound after `play_card`. -/
theorem minion_slot_invariant_witness :
    stateFullRoster.playerMinions.length = 5 ∧
    insertMinion ⟨.raptor, 1, 0⟩ stateFullRoster.playerMinions
        stateFullRoster.store =
      (stateFullRoster.playerMinions.tail ++ [stateFullRoster.store.length],
        stateFullRoster.store ++ [⟨.raptor, 1, 0⟩]) ∧
    (playCard (.minionCard ⟨.raptor, 1, 0⟩) .player
        stateFullRoster).2.playerMinions.length ≤ 5 :=
  ⟨by decide,
    minion_slot_invariant.1 ⟨.raptor, 1, 0⟩ stateFullRoster.playerMinions
      stateFullRoster.store (by decide),
    (minion_slot_invariant.2.2.1 stateFullRoster
      (.minionCard ⟨.raptor, 1, 0⟩) .player (by decide) (by decide)).1⟩

/-- C10: when the enemy hero is dead immediately after its `new_turn`
inside `end_turn` (for instance because its deck ran out), `end_turn`
returns the empty play list and the state right after the player-minion
sweep and that `new_turn` — the enemy plays no card, no enemy minion
resolves an effect, `player.new_turn()` never runs, and the player's
hand, deck, energy and energy capacity are exactly what they were when
`end_turn` started. -/
theorem end_turn_enemy_death_short_circuit (m : HearthModel)
    (hdead : ((sweepMinions true m.playerMinions m).enemy.newTurn).isAlive
      = false) :
    endTurn m = ([], { sweepMinions true m.playerMinions m with
      enemy := (sweepMinions true m.playerMinions m).enemy.newTurn }) ∧
    (endTurn m).2.player.hand = m.player.hand ∧
    (endTurn m).2.player.deck = m.player.deck ∧
    (endTurn m).2.player.energy = m.player.energy ∧
    (endTurn m).2.player.energyCapacity = m.player.energyCapacity := by
  have h1 : endTurn m = ([], { sweepMinions true m.playerMinions m with
      enemy := (sweepMinions true m.playerMinions m).enemy.newTurn }) := by
    unfold endTurn
    dsimp only
    rw [hdead]
    rfl
  obtain ⟨g1, g2, g3, g4⟩ := sweepMinions_player_econ true m.playerMinions m
  rw [h1]
  exact ⟨rfl, g1, g2, g3, g4⟩

/-- Witness for C10: an enemy with a full hand and an empty deck dies in
its own `new_turn`, and `end_turn` leaves the player's economy alone. -/
theorem end_turn_enemy_death_short_circuit_witness :
    ((sweepMinions true stateEnemyExhausted.playerMinions
        stateEnemyExhausted).enemy.newTurn).isAlive = false ∧
    (endTurn stateEnemyExhausted).1 = [] ∧
    (endTurn stateEnemyExhausted).2.player.hand =
      stateEnemyExhausted.player.hand :=
  ⟨by decide,
    by rw [(end_turn_enemy_death_short_circuit stateEnemyExhausted
      (by decide)).1],
    (end_turn_enemy_death_short_circuit stateEnemyExhausted
      (by decide)).2.1⟩

/-! ### The enemy play loop (C2) -/

/-- What a successful hand scan means: the hand splits into an
unaffordable scanned part, the first affordable card, and the rest. -/
theorem findAffordable_some (energy : Int) (hand : List Card)
    (p : List Card) (c : Card) (s : List Card)
    (h : findAffordable energy hand = some (p, c, s)) :
    hand = p ++ c :: s ∧ (∀ x ∈ p, ¬ ((x.cost : Int) ≤ energy)) ∧
    (c.cost : Int) ≤ energy := by
  induction hand generalizing p with
  | nil => cases h
  | cons a t ih =>
    unfold findAffordable at h
    by_cases ha : (a.cost : Int) ≤ energy
    · rw [if_pos ha] at h
      cases h
      exact ⟨rfl, by simp, ha⟩
    · rw [if_neg ha] at h
      cases hf : findAffordable energy t with
      | none =>
        rw [hf] at h
        cases h
      | some w =>
        obtain ⟨p', c', s'⟩ := w
        rw [hf] at h
        cases h
        obtain ⟨h1, h2, h3⟩ := ih p' hf
        refine ⟨by rw [h1]; rfl, ?_, h3⟩
        intro x hx
        rcases List.mem_cons.mp hx with hx | hx
        · rw [hx]; exact ha
        · exact h2 x hx

/-- A scan affords nothing exactly when every card of the hand costs more
than the available energy. -/
theorem findAffordable_none (energy : Int) (hand : List Card) :
    findAffordable energy hand = none ↔
    ∀ x ∈ hand, ¬ ((x.cost : Int) ≤ energy) := by
  induction hand with
  | nil => simp [findAffordable]
  | cons a t ih =>
    unfold findAffordable
    by_cases ha : (a.cost : Int) ≤ energy
    · rw [if_pos ha]
      constructor
      · intro h; cases h
      · intro h
        exact absurd ha (h a (List.mem_cons_self a t))
    · rw [if_neg ha]
      cases hf : findAffordable energy t with
      | none =>
        simp only [true_iff]
        intro x hx
        rcases List.mem_cons.mp hx with hx | hx
        · rw [hx]; exact ha
        · exact (ih.mp hf) x hx
      | some w =>
        obtain ⟨p', c', s'⟩ := w
        constructor
        · intro h; cases h
        · intro h
          have := ih.mpr fun x hx => h x (List.mem_cons_of_mem a hx)
          rw [hf] at this
          cases this

/-- The played-name list of the enemy loop equals the reference policy:
the early stop (when the played card was the last of the hand) is
harmless, because every card scanned before it was already unaffordable
and energy never grows inside the loop. -/
theorem enemyLoopAux_ref (fuel : Nat) :
    ∀ m : HearthModel, m.enemy.hand.length ≤ fuel →
    (enemyLoopAux fuel m).1 = refPolicyAux fuel m.enemy.hand m.enemy.energy := by
  induction fuel with
  | zero => intro m _; rfl
  | succ f ih =>
    intro m hm
    unfold enemyLoopAux refPolicyAux
    cases hf : findAffordable m.enemy.energy m.enemy.hand with
    | none => rfl
    | some w =>
      obtain ⟨p, c, s⟩ := w
      obtain ⟨hhand, hpre, hc⟩ := findAffordable_some _ _ _ _ _ hf
      dsimp only
      have hlen : (p ++ s).length ≤ f := by
        have h5 : m.enemy.hand.length = p.length + s.length + 1 := by
          rw [hhand, List.length_append]
          rfl
        rw [List.length_append]
        omega
      by_cases hs : s.length = 0
      · rw [if_pos hs]
        have hsnil : s = [] := List.length_eq_zero.mp hs
        have hrest : refPolicyAux f (p ++ s)
            (m.enemy.energy - (c.cost : Int)) = [] := by
          cases f with
          | zero => rfl
          | succ f' =>
            unfold refPolicyAux
            rw [(findAffordable_none _ _).mpr ?_]
            intro x hx
            rw [hsnil, List.append_nil] at hx
            have hxc := hpre x hx
            have : (0 : Int) ≤ (c.cost : Int) := Int.natCast_nonneg _
            omega
        rw [hrest]
      · rw [if_neg hs]
        dsimp only
        have hrec := ih (enemyPlayStep c p s m)
          (by rw [(enemyPlayStep_econ c p s m).1]; exact hlen)
        rw [hrec, (enemyPlayStep_econ c p s m).1, (enemyPlayStep_econ c p s m).2]

/-- When the enemy loop stops, no card left in the enemy hand is
affordable with the remaining energy. -/
theorem enemyLoopAux_post (fuel : Nat) :
    ∀ m : HearthModel, m.enemy.hand.length ≤ fuel →
    ∀ c ∈ (enemyLoopAux fuel m).2.enemy.hand,
      ¬ ((c.cost : Int) ≤ (enemyLoopAux fuel m).2.enemy.energy) := by
  induction fuel with
  | zero =>
    intro m hm c hc
    have hz : m.enemy.hand = [] := List.length_eq_zero.mp (by omega)
    rw [show (enemyLoopAux 0 m).2 = m from rfl, hz] at hc
    cases hc
  | succ f ih =>
    intro m hm c hc
    unfold enemyLoopAux at hc ⊢
    cases hf : findAffordable m.enemy.energy m.enemy.hand with
    | none =>
      rw [hf] at hc
      dsimp only at hc ⊢
      exact (findAffordable_none _ _).mp hf c hc
    | some w =>
      obtain ⟨p, c', s⟩ := w
      obtain ⟨hhand, hpre, hc'⟩ := findAffordable_some _ _ _ _ _ hf
      rw [hf] at hc
      dsimp only at hc ⊢
      have hlen : (p ++ s).length ≤ f := by
        have h5 : m.enemy.hand.length = p.length + s.length + 1 := by
          rw [hhand, List.length_append]
          rfl
        rw [List.length_append]
        omega
      by_cases hs : s.length = 0
      · rw [if_pos hs] at hc ⊢
        dsimp only at hc ⊢
        rw [(enemyPlayStep_econ c' p s m).1] at hc
        rw [(enemyPlayStep_econ c' p s m).2]
        have hsnil : s = [] := List.length_eq_zero.mp hs
        rw [hsnil, List.append_nil] at hc
        have hxc := hpre c hc
        have : (0 : Int) ≤ (c'.cost : Int) := Int.natCast_nonneg _
        omega
      · rw [if_neg hs] at hc ⊢
        dsimp only at hc ⊢
        refine ih (enemyPlayStep c' p s m) ?_ c hc
        rw [(enemyPlayStep_econ c' p s m).1]
        exact hlen

/-- C2: the enemy card-playing loop of `end_turn` (a total function of the
embedding, so it terminates on every enemy hand and energy level) stops
only when no card remaining in the enemy hand costs at most the enemy's
remaining energy, and the list of played type-names it records equals the
reference policy that rescans the hand from the front after every
successful play; in particular a hand none of whose cards is affordable
(such as one whose cards all cost more than the enemy's energy — the
spec's cost-[5,5,5]-versus-energy-3 scenario) plays nothing and leaves
the state untouched. -/
theorem enemy_loop_matches_reference :
    (∀ m : HearthModel,
      (enemyLoop m).1 = refPolicy m.enemy.hand m.enemy.energy) ∧
    (∀ m : HearthModel, ∀ c ∈ (enemyLoop m).2.enemy.hand,
      ¬ ((c.cost : Int) ≤ (enemyLoop m).2.enemy.energy)) ∧
    (∀ m : HearthModel,
      (∀ c ∈ m.enemy.hand, ¬ ((c.cost : Int) ≤ m.enemy.energy)) →
      enemyLoop m = ([], m)) := by
  refine ⟨?_, ?_, ?_⟩
  · intro m
    exact enemyLoopAux_ref m.enemy.hand.length m (le_refl _)
  · intro m
    exact enemyLoopAux_post m.enemy.hand.length m (le_refl _)
  · intro m hall
    have hf : findAffordable m.enemy.energy m.enemy.hand = none :=
      (findAffordable_none _ _).mpr hall
    unfold enemyLoop
    cases hh : m.enemy.hand with
    | nil => rfl
    | cons a t =>
      show enemyLoopAux (t.length + 1) m = ([], m)
      unfold enemyLoopAux
      rw [hf]

/-- Witness for C2 at a hand of three unaffordable Fireballs: the loop
plays nothing. -/
theorem enemy_loop_matches_reference_witness :
    (∀ c ∈ stateNoAfford.enemy.hand,
      ¬ ((c.cost : Int) ≤ stateNoAfford.enemy.energy)) ∧
    enemyLoop stateNoAfford = ([], stateNoAfford) :=
  ⟨by decide, enemy_loop_matches_reference.2.2 stateNoAfford (by decide)⟩

/-! ### Decimal rendering and parsing (C4) -/

/-- A rendered digit is a digit character. -/
theorem isDigitChar_digitChar (n : Nat) (h : n < 10) :
    isDigitChar (digitChar n) = true := by
  interval_cases n <;> decide

/-- Parsing inverts rendering on one digit. -/
theorem charVal_digitChar (n : Nat) (h : n < 10) :
    charVal (digitChar n) = n := by
  interval_cases n <;> decide

/-- With enough fuel, `natDigitsAux` emits a non-empty all-digit string
whose left-to-right base-10 fold recovers the number. -/
theorem natDigitsAux_spec (fuel : Nat) :
    ∀ n, n < 10 ^ (fuel + 1) →
    natDigitsAux (fuel + 1) n ≠ [] ∧
    (∀ c ∈ natDigitsAux (fuel + 1) n, isDigitChar c = true) ∧
    (natDigitsAux (fuel + 1) n).foldl (fun a c => a * 10 + charVal c) 0
      = n := by
  induction fuel with
  | zero =>
    intro n hn
    have hlt : n < 10 := by simpa using hn
    unfold natDigitsAux
    rw [if_pos hlt]
    refine ⟨by simp, ?_, ?_⟩
    · intro c hc
      rw [List.mem_singleton.mp hc]
      exact isDigitChar_digitChar n hlt
    · show 0 * 10 + charVal (digitChar n) = n
      rw [charVal_digitChar n hlt]
      omega
  | succ f ih =>
    intro n hn
    unfold natDigitsAux
    by_cases hlt : n < 10
    · rw [if_pos hlt]
      refine ⟨by simp, ?_, ?_⟩
      · intro c hc
        rw [List.mem_singleton.mp hc]
        exact isDigitChar_digitChar n hlt
      · show 0 * 10 + charVal (digitChar n) = n
        rw [charVal_digitChar n hlt]
        omega
    · rw [if_neg hlt]
      have hdiv : n / 10 < 10 ^ (f + 1) := by
        rw [Nat.div_lt_iff_lt_mul (by norm_num)]
        calc n < 10 ^ (f + 1 + 1) := hn
        _ = 10 ^ (f + 1) * 10 := by rw [pow_succ]
      obtain ⟨h1, h2, h3⟩ := ih (n / 10) hdiv
      refine ⟨by simp, ?_, ?_⟩
      · intro c hc
        rcases List.mem_append.mp hc with hc | hc
        · exact h2 c hc
        · rw [List.mem_singleton.mp hc]
          exact isDigitChar_digitChar _ (Nat.mod_lt _ (by norm_num))
      · rw [List.foldl_append, h3]
        show (n / 10) * 10 + charVal (digitChar (n % 10)) = n
        rw [charVal_digitChar _ (Nat.mod_lt _ (by norm_num))]
        omega

/-- `natRepr` is within the fuel bound. -/
theorem natRepr_spec (n : Nat) :
    natRepr n ≠ [] ∧
    (∀ c ∈ natRepr n, isDigitChar c = true) ∧
    (natRepr n).foldl (fun a c => a * 10 + charVal c) 0 = n := by
  have hfuel : n < 10 ^ (n + 1) := by
    calc n < 10 ^ n := Nat.lt_pow_self (by norm_num) n
    _ ≤ 10 ^ (n + 1) := Nat.pow_le_pow_right (by norm_num) (by omega)
  exact natDigitsAux_spec n n hfuel

/-- `int(...)` inverts `str` on natural numbers. -/
theorem parseNat_natRepr (n : Nat) : parseNat (natRepr n) = some n := by
  obtain ⟨h1, h2, h3⟩ := natRepr_spec n
  have hpd : pyIsDigit (natRepr n) = true := by
    unfold pyIsDigit
    rw [Bool.and_eq_true, Bool.not_eq_true', List.all_eq_true]
    exact ⟨by rwa [List.isEmpty_eq_false], fun c hc => h2 c hc⟩
  unfold parseNat
  rw [if_pos hpd, h3]

/-- Every character of `str(i)` is the minus sign or a digit. -/
theorem intRepr_chars (i : Int) :
    ∀ c ∈ intRepr i, c = '-' ∨ isDigitChar c = true := by
  intro c hc
  unfold intRepr at hc
  by_cases hneg : i < 0
  · rw [if_pos hneg] at hc
    rcases List.mem_cons.mp hc with hc | hc
    · exact Or.inl hc
    · exact Or.inr ((natRepr_spec _).2.1 c hc)
  · rw [if_neg hneg] at hc
    exact Or.inr ((natRepr_spec _).2.1 c hc)

/-- `int(...)` inverts `str` on integers. -/
theorem parseInt_intRepr (i : Int) : parseInt (intRepr i) = some i := by
  unfold intRepr
  by_cases hneg : i < 0
  · rw [if_pos hneg]
    show (match parseNat (natRepr (-i).toNat) with
      | some n => some (-(n : Int))
      | none => none) = some i
    rw [parseNat_natRepr]
    show some (-((((-i).toNat : Nat)) : Int)) = some i
    rw [Int.toNat_of_nonneg (by omega)]
    rw [neg_neg]
  · rw [if_neg hneg]
    obtain ⟨h1, h2, _⟩ := natRepr_spec i.toNat
    obtain ⟨c0, t0, hrepr⟩ : ∃ c0 t0, natRepr i.toNat = c0 :: t0 := by
      cases hr : natRepr i.toNat with
      | nil => exact absurd hr h1
      | cons a t => exact ⟨a, t, rfl⟩
    have hc0 : isDigitChar c0 = true := h2 c0 (by rw [hrepr]; exact List.mem_cons_self _ _)
    have hne : c0 ≠ '-' := by
      intro h
      rw [h] at hc0
      exact absurd hc0 (by decide)
    rw [hrepr]
    unfold parseInt
    split
    · next heq =>
      injection heq with h1 h2
      exact absurd hc0 (by rw [h1] at hc0 ⊢; decide)
    · rw [← hrepr, parseNat_natRepr]
      show some ((i.toNat : Nat) : Int) = some i
      rw [Int.toNat_of_nonneg (by omega)]

/-- A character that is neither a minus sign nor a digit never occurs in
`str(i)`. -/
theorem notMem_intRepr (i : Int) (ch : Char) (h1 : ch ≠ '-')
    (h2 : isDigitChar ch = false) : ch ∉ intRepr i := by
  intro hmem
  rcases intRepr_chars i ch hmem with h | h
  · exact h1 h
  · rw [h] at h2
    cases h2

/-! ### Python `split` and `join` (C4) -/

/-- Splitting a separator-free string yields that single part. -/
theorem splitOn_no_sep (sep : Char) (s : List Char) (h : sep ∉ s) :
    splitOn sep s = [s] := by
  induction s with
  | nil => rfl
  | cons c t ih =>
    unfold splitOn
    rw [if_neg (by intro hc; exact h (hc ▸ List.mem_cons_self c t))]
    rw [ih (fun hm => h (List.mem_cons_of_mem c hm))]

/-- Splitting past a separator-free part peels it off. -/
theorem splitOn_append (sep : Char) (a b : List Char) (h : sep ∉ a) :
    splitOn sep (a ++ sep :: b) = a :: splitOn sep b := by
  induction a with
  | nil =>
    show splitOn sep (sep :: b) = [] :: splitOn sep b
    conv_lhs => unfold splitOn
    dsimp only
    rw [if_pos rfl]
  | cons c t ih =>
    show splitOn sep (c :: (t ++ sep :: b)) = (c :: t) :: splitOn sep b
    conv_lhs => unfold splitOn
    dsimp only
    rw [if_neg (by intro hc; exact h (hc ▸ List.mem_cons_self c t))]
    rw [ih (fun hm => h (List.mem_cons_of_mem c hm))]

/-- `split` inverts `join` when no part contains the separator. -/
theorem splitOn_joinSep (sep : Char) (ps : List (List Char))
    (hne : ps ≠ []) (h : ∀ p ∈ ps, sep ∉ p) :
    splitOn sep (joinSep sep ps) = ps := by
  induction ps with
  | nil => exact absurd rfl hne
  | cons x xs ih =>
    cases xs with
    | nil =>
      show splitOn sep (joinSep sep [x]) = [x]
      exact splitOn_no_sep sep x (h x (List.mem_cons_self _ _))
    | cons y ys =>
      show splitOn sep (x ++ sep :: joinSep sep (y :: ys)) = x :: (y :: ys)
      rw [splitOn_append sep x _ (h x (List.mem_cons_self _ _))]
      rw [ih (by simp) (fun p hp => h p (List.mem_cons_of_mem x hp))]

/-- A character that is not the separator and occurs in no part does not
occur in the joined string. -/
theorem notMem_joinSep (sep ch : Char) (ps : List (List Char))
    (hs : ch ≠ sep) (h : ∀ p ∈ ps, ch ∉ p) : ch ∉ joinSep sep ps := by
  induction ps with
  | nil => exact List.not_mem_nil ch
  | cons x xs ih =>
    cases xs with
    | nil => exact h x (List.mem_cons_self _ _)
    | cons y ys =>
      show ch ∉ x ++ sep :: joinSep sep (y :: ys)
      intro hmem
      rcases List.mem_append.mp hmem with hm | hm
      · exact h x (List.mem_cons_self _ _) hm
      · rcases List.mem_cons.mp hm with hm | hm
        · exact hs hm
        · exact ih (fun p hp => h p (List.mem_cons_of_mem x hp)) hm

/-! ### Card symbols and their decoding (C4) -/

/-- `str(n)` passes Python's `isdigit` test. -/
theorem pyIsDigit_natRepr (n : Nat) : pyIsDigit (natRepr n) = true := by
  obtain ⟨h1, h2, _⟩ := natRepr_spec n
  unfold pyIsDigit
  rw [Bool.and_eq_true, Bool.not_eq_true', List.all_eq_true]
  exact ⟨by rwa [List.isEmpty_eq_false], fun c hc => h2 c hc⟩

/-- Every character of a card symbol is a digit or one of the six fixed
symbol letters. -/
theorem symbol_chars (c : Card) :
    ∀ ch ∈ c.symbol, isDigitChar ch = true ∨
      ch ∈ ['C', 'S', 'H', 'M', 'W', 'R'] := by
  intro ch hch
  cases c with
  | basic => right; rw [List.mem_singleton.mp hch]; decide
  | shield => right; rw [List.mem_singleton.mp hch]; decide
  | heal => right; rw [List.mem_singleton.mp hch]; decide
  | fireball t => exact Or.inl ((natRepr_spec t).2.1 ch hch)
  | minionCard d =>
    right
    rw [List.mem_singleton.mp hch]
    cases d.variant <;> decide

/-- A character that is neither a digit nor a symbol letter occurs in no
card symbol. -/
theorem notMem_symbol (c : Card) (ch : Char) (hd : isDigitChar ch = false)
    (hl : ch ∉ ['C', 'S', 'H', 'M', 'W', 'R']) : ch ∉ c.symbol := by
  intro hm
  rcases symbol_chars c ch hm with h | h
  · rw [h] at hd; cases hd
  · exact hl h

/-- Decoding a card's symbol rebuilds the card, with minion cards respawned
at health 1, shield 0. -/
theorem generateCard_symbol (c : Card) :
    generateCard c.symbol = some (regenCard c) := by
  cases c with
  | basic => rfl
  | shield => rfl
  | heal => rfl
  | fireball t =>
    show generateCard (natRepr t) = some (.fireball t)
    have hnotl : ∀ x : Char, isDigitChar x = false → natRepr t ≠ [x] := by
      intro x hx h
      have hd := (natRepr_spec t).2.1 x (by rw [h]; exact List.mem_singleton_self x)
      rw [hd] at hx
      cases hx
    unfold generateCard
    rw [if_neg (hnotl 'C' (by decide)), if_neg (hnotl 'S' (by decide)),
      if_neg (hnotl 'H' (by decide)), if_pos (pyIsDigit_natRepr t),
      parseNat_natRepr]
    rfl
  | minionCard d =>
    obtain ⟨v, hh, hs⟩ := d
    cases v <;> rfl

/-- Reconstructed cards carry the same symbol. -/
theorem symbol_regenCard (c : Card) : (regenCard c).symbol = c.symbol := by
  cases c <;> rfl

/-- `_generate_cards` maps a symbol list back to the regenerated cards. -/
theorem filterMap_generateCard (cards : List Card) :
    (cards.map Card.symbol).filterMap generateCard = cards.map regenCard := by
  induction cards with
  | nil => rfl
  | cons c t ih =>
    show List.filterMap generateCard (c.symbol :: t.map Card.symbol) =
      regenCard c :: t.map regenCard
    rw [List.filterMap_cons, generateCard_symbol]
    dsimp only
    rw [ih]

/-- Encoding a card list as comma-joined symbols and decoding it yields
the regenerated cards. -/
theorem generateCards_symbols (cards : List Card) :
    generateCards (splitOn ',' (joinSep ',' (cards.map Card.symbol))) =
    cards.map regenCard := by
  cases cards with
  | nil => rfl
  | cons c t =>
    unfold generateCards
    rw [splitOn_joinSep ',' _ (by simp) (by
      intro p hp
      obtain ⟨x, _, hx⟩ := List.mem_map.mp hp
      rw [← hx]
      exact notMem_symbol x ',' (by decide) (by decide))]
    exact filterMap_generateCard (c :: t)

/-! ### Hero string round trip (C4) -/

/-- `Hero.__str__` in explicitly associated form. -/
theorem heroStr_eq (h : Hero) : heroStr h =
    (intRepr h.health ++ ',' :: intRepr h.shield ++
      ',' :: intRepr h.energyCapacity) ++
    ';' :: (joinSep ',' (h.deck.map Card.symbol) ++
      ';' :: joinSep ',' (h.hand.map Card.symbol)) := by
  unfold heroStr
  simp [List.append_assoc]

/-- No semicolon occurs in the hero's stats component. -/
theorem notMem_stats (h : Hero) (ch : Char) (h1 : ch ≠ ',')
    (h2 : ch ≠ '-') (h3 : isDigitChar ch = false) :
    ch ∉ intRepr h.health ++ ',' :: intRepr h.shield ++
      ',' :: intRepr h.energyCapacity := by
  intro hm
  simp only [List.mem_append, List.mem_cons] at hm
  rcases hm with (hm | hm | hm) | hm | hm
  · exact notMem_intRepr _ ch h2 h3 hm
  · exact h1 hm
  · exact notMem_intRepr _ ch h2 h3 hm
  · exact h1 hm
  · exact notMem_intRepr _ ch h2 h3 hm

/-- A character that is not a comma, a digit or a symbol letter occurs in
no comma-joined symbol list. -/
theorem notMem_symbols_join (cards : List Card) (ch : Char)
    (h1 : ch ≠ ',') (hd : isDigitChar ch = false)
    (hl : ch ∉ ['C', 'S', 'H', 'M', 'W', 'R']) :
    ch ∉ joinSep ',' (cards.map Card.symbol) := by
  refine notMem_joinSep ',' ch _ h1 ?_
  intro p hp
  obtain ⟨x, _, hx⟩ := List.mem_map.mp hp
  rw [← hx]
  exact notMem_symbol x ch hd hl

/-- `split(";")` recovers the three components of a hero string. -/
theorem splitOn_heroStr (h : Hero) :
    splitOn ';' (heroStr h) =
      [intRepr h.health ++ ',' :: intRepr h.shield ++
        ',' :: intRepr h.energyCapacity,
       joinSep ',' (h.deck.map Card.symbol),
       joinSep ',' (h.hand.map Card.symbol)] := by
  rw [heroStr_eq]
  rw [splitOn_append ';' _ _
    (notMem_stats h ';' (by decide) (by decide) (by decide))]
  rw [splitOn_append ';' _ _
    (notMem_symbols_join _ ';' (by decide) (by decide) (by decide))]
  rw [splitOn_no_sep ';' _
    (notMem_symbols_join _ ';' (by decide) (by decide) (by decide))]

/-- `split(",")` recovers the three stats. -/
theorem splitOn_stats (h : Hero) :
    splitOn ',' (intRepr h.health ++ ',' :: intRepr h.shield ++
      ',' :: intRepr h.energyCapacity) =
    [intRepr h.health, intRepr h.shield, intRepr h.energyCapacity] := by
  have heq : intRepr h.health ++ ',' :: intRepr h.shield ++
      ',' :: intRepr h.energyCapacity =
      intRepr h.health ++ ',' :: (intRepr h.shield ++
        ',' :: intRepr h.energyCapacity) := by
    simp [List.append_assoc]
  rw [heq]
  rw [splitOn_append ',' _ _ (notMem_intRepr _ ',' (by decide) (by decide))]
  rw [splitOn_append ',' _ _ (notMem_intRepr _ ',' (by decide) (by decide))]
  rw [splitOn_no_sep ',' _ (notMem_intRepr _ ',' (by decide) (by decide))]

/-- `_generate_hero` inverts `Hero.__str__` up to regeneration: stats
survive, energy is reset to capacity, and deck and hand are rebuilt from
their symbols. -/
theorem generateHero_heroStr (h : Hero) :
    generateHero (heroStr h) = some (regenHero h) := by
  unfold generateHero
  rw [splitOn_heroStr]
  dsimp only
  rw [splitOn_stats]
  dsimp only
  rw [parseInt_intRepr, parseInt_intRepr, parseInt_intRepr]
  dsimp only
  rw [generateCards_symbols, generateCards_symbols]
  rfl

/-! ### Minion roster round trip (C4) -/

/-- No minion symbol is a comma, a semicolon or a pipe. -/
theorem minionSymbol_ne (v : MinionVariant) :
    minionSymbol v ≠ ',' ∧ minionSymbol v ≠ ';' ∧ minionSymbol v ≠ '|' ∧
    ¬ Char.isWhitespace (minionSymbol v) := by
  cases v <;> refine ⟨by decide, by decide, by decide, by decide⟩

/-- A character that is not a comma, minus, digit or minion symbol occurs
in no minion triple. -/
theorem notMem_minionInfoOf (d : MinionData) (ch : Char)
    (h1 : ch ≠ ',') (h2 : ch ≠ '-') (h3 : isDigitChar ch = false)
    (h4 : ∀ v, ch ≠ minionSymbol v) : ch ∉ minionInfoOf d := by
  intro hm
  unfold minionInfoOf at hm
  simp only [List.mem_append, List.mem_cons] at hm
  rcases hm with (hm | hm | hm) | hm | hm
  · exact h4 d.variant hm
  · exact h1 hm
  · exact notMem_intRepr _ ch h2 h3 hm
  · exact h1 hm
  · exact notMem_intRepr _ ch h2 h3 hm

/-- `split(",")` recovers the three parts of a minion triple. -/
theorem splitOn_minionInfoOf (d : MinionData) :
    splitOn ',' (minionInfoOf d) =
      [[minionSymbol d.variant], intRepr d.health, intRepr d.shield] := by
  have heq : minionInfoOf d = [minionSymbol d.variant] ++
      ',' :: (intRepr d.health ++ ',' :: intRepr d.shield) := by
    unfold minionInfoOf
    simp [List.append_assoc]
  rw [heq]
  rw [splitOn_append ',' _ _ (by
    intro hm
    exact (minionSymbol_ne d.variant).1 (List.mem_singleton.mp hm).symm)]
  rw [splitOn_append ',' _ _ (notMem_intRepr _ ',' (by decide) (by decide))]
  rw [splitOn_no_sep ',' _ (notMem_intRepr _ ',' (by decide) (by decide))]

/-- Decoding a list of rendered minion triples yields exactly those
minions. -/
theorem generateMinionList_infos (ds : List MinionData) :
    generateMinionList (ds.map minionInfoOf) = some ds := by
  induction ds with
  | nil => rfl
  | cons d t ih =>
    show generateMinionList (minionInfoOf d :: t.map minionInfoOf) =
      some (d :: t)
    unfold generateMinionList
    rw [splitOn_minionInfoOf]
    dsimp only
    rw [parseInt_intRepr, parseInt_intRepr, ih]
    dsimp only
    obtain ⟨v, hh, hs⟩ := d
    cases v <;> rfl

/-- `_generate_minions` inverts `_get_minion_info` exactly. -/
theorem generateMinions_minionInfo (ids : List Nat)
    (store : List MinionData) :
    generateMinions (minionInfo ids store) =
      some (rosterDatas ids store) := by
  unfold minionInfo
  cases hds : rosterDatas ids store with
  | nil => rfl
  | cons d t =>
    obtain ⟨rest, hjoin⟩ : ∃ rest,
        joinSep ';' ((d :: t).map minionInfoOf) =
          minionSymbol d.variant :: rest := by
      cases t with
      | nil => exact ⟨_, rfl⟩
      | cons y ys => exact ⟨_, rfl⟩
    have hstrip : pyStrip (joinSep ';' ((d :: t).map minionInfoOf)) ≠ [] := by
      rw [hjoin]
      unfold pyStrip
      rw [List.dropWhile_cons, if_neg (by
        simpa using (minionSymbol_ne d.variant).2.2.2)]
      intro hrev
      have := List.reverse_eq_nil_iff.mp hrev
      have hmem : minionSymbol d.variant ∈
          (minionSymbol d.variant :: rest).reverse := by
        rw [List.mem_reverse]
        exact List.mem_cons_self _ _
      have := List.dropWhile_eq_nil_iff.mp this _ hmem
      exact (minionSymbol_ne d.variant).2.2.2 (by simpa using this)
    unfold generateMinions
    rw [if_neg hstrip]
    rw [splitOn_joinSep ';' _ (by simp) (by
      intro p hp
      obtain ⟨x, _, hx⟩ := List.mem_map.mp hp
      rw [← hx]
      exact notMem_minionInfoOf x ';' (by decide) (by decide) (by decide)
        (fun v => fun hv => (minionSymbol_ne v).2.1 hv.symm))]
    exact generateMinionList_infos (d :: t)

/-! ### Full snapshot round trip (C4) -/

/-- No pipe occurs in a hero string. -/
theorem notMem_heroStr_pipe (h : Hero) : '|' ∉ heroStr h := by
  rw [heroStr_eq]
  intro hm
  rcases List.mem_append.mp hm with hm | hm
  · exact notMem_stats h '|' (by decide) (by decide) (by decide) hm
  · rcases List.mem_cons.mp hm with hm | hm
    · cases hm
    · rcases List.mem_append.mp hm with hm | hm
      · exact notMem_symbols_join _ '|' (by decide) (by decide) (by decide) hm
      · rcases List.mem_cons.mp hm with hm | hm
        · cases hm
        · exact notMem_symbols_join _ '|' (by decide) (by decide) (by decide)
            hm

/-- No pipe occurs in a rendered minion roster. -/
theorem notMem_minionInfo_pipe (ids : List Nat) (store : List MinionData) :
    '|' ∉ minionInfo ids store := by
  unfold minionInfo
  refine notMem_joinSep ';' '|' _ (by decide) ?_
  intro p hp
  obtain ⟨x, _, hx⟩ := List.mem_map.mp hp
  rw [← hx]
  exact notMem_minionInfoOf x '|' (by decide) (by decide) (by decide)
    (fun v => fun hv => (minionSymbol_ne v).2.2.1 hv.symm)

/-- `HearthModel.__str__` in explicitly associated form. -/
theorem modelStr_eq (m : HearthModel) : modelStr m =
    heroStr m.player ++ '|' :: (minionInfo m.playerMinions m.store ++
    '|' :: (heroStr m.enemy ++ '|' :: minionInfo m.enemyMinions m.store)) := by
  unfold modelStr
  simp [List.append_assoc]

/-- `split("|")` recovers the four components of a model string. -/
theorem splitOn_modelStr (m : HearthModel) :
    splitOn '|' (modelStr m) =
      [heroStr m.player, minionInfo m.playerMinions m.store,
       heroStr m.enemy, minionInfo m.enemyMinions m.store] := by
  rw [modelStr_eq]
  rw [splitOn_append '|' _ _ (notMem_heroStr_pipe m.player)]
  rw [splitOn_append '|' _ _ (notMem_minionInfo_pipe _ _)]
  rw [splitOn_append '|' _ _ (notMem_heroStr_pipe m.enemy)]
  rw [splitOn_no_sep '|' _ (notMem_minionInfo_pipe _ _)]

/-- `load_game` inverts `HearthModel.__str__` up to regeneration. -/
theorem loadModel_modelStr (m : HearthModel) :
    loadModel (modelStr m) = some (mkModel
      (regenHero m.player) (rosterDatas m.playerMinions m.store)
      (regenHero m.enemy) (rosterDatas m.enemyMinions m.store)) := by
  unfold loadModel
  rw [splitOn_modelStr]
  dsimp only
  rw [generateHero_heroStr, generateMinions_minionInfo,
    generateHero_heroStr, generateMinions_minionInfo]

/-- The references `0, 1, …` retrieve a freshly stored list. -/
theorem filterMap_get_range (l : List MinionData) :
    (List.range l.length).filterMap (fun i => l.get? i) = l := by
  induction l with
  | nil => rfl
  | cons a t ih =>
    show (List.range (t.length + 1)).filterMap (fun i => (a :: t).get? i) =
      a :: t
    rw [List.range_succ_eq_map, List.filterMap_cons]
    rw [show (a :: t).get? 0 = some a from rfl]
    dsimp only
    rw [List.filterMap_map]
    have hcg : List.filterMap ((fun i => (a :: t).get? i) ∘ Nat.succ)
        (List.range t.length) =
        List.filterMap (fun i => t.get? i) (List.range t.length) :=
      List.filterMap_congr (fun i _ => rfl)
    rw [hcg, ih]

/-- In a freshly loaded model, the player roster references denote the
loaded player minions. -/
theorem rosterDatas_model_left (pm em : List MinionData) :
    rosterDatas (List.range pm.length) (pm ++ em) = pm := by
  unfold rosterDatas
  rw [List.filterMap_congr
    (fun i hi => List.get?_append (List.mem_range.mp hi) :
      ∀ i ∈ List.range pm.length, (pm ++ em).get? i = pm.get? i)]
  exact filterMap_get_range pm

/-- In a freshly loaded model, the enemy roster references denote the
loaded enemy minions. -/
theorem rosterDatas_model_right (pm em : List MinionData) :
    rosterDatas ((List.range em.length).map (· + pm.length)) (pm ++ em) =
      em := by
  unfold rosterDatas
  rw [List.filterMap_map]
  rw [List.filterMap_congr (?_ :
    ∀ i ∈ List.range em.length,
      ((fun i => (pm ++ em).get? i) ∘ (· + pm.length)) i = em.get? i)]
  · exact filterMap_get_range em
  · intro i _
    show (pm ++ em).get? (i + pm.length) = em.get? i
    rw [List.get?_append_right (by omega)]
    congr 1
    omega

/-- C4: decoding the pipe-delimited snapshot produced by encoding any game
state succeeds and yields a model with identical player and enemy health,
shield and energy capacity (energy reset to capacity on load), identical
deck and hand symbol sequences in order, and identical
`(symbol, health, shield)` triples for both minion rosters in order. -/
theorem snapshot_round_trip (m : HearthModel) :
    ∃ m', loadModel (modelStr m) = some m' ∧
      m'.player.health = m.player.health ∧
      m'.player.shield = m.player.shield ∧
      m'.player.energyCapacity = m.player.energyCapacity ∧
      m'.player.energy = m.player.energyCapacity ∧
      m'.enemy.health = m.enemy.health ∧
      m'.enemy.shield = m.enemy.shield ∧
      m'.enemy.energyCapacity = m.enemy.energyCapacity ∧
      m'.enemy.energy = m.enemy.energyCapacity ∧
      m'.player.deck.map Card.symbol = m.player.deck.map Card.symbol ∧
      m'.player.hand.map Card.symbol = m.player.hand.map Card.symbol ∧
      m'.enemy.deck.map Card.symbol = m.enemy.deck.map Card.symbol ∧
      m'.enemy.hand.map Card.symbol = m.enemy.hand.map Card.symbol ∧
      rosterTriples m'.playerMinions m'.store =
        rosterTriples m.playerMinions m.store ∧
      rosterTriples m'.enemyMinions m'.store =
        rosterTriples m.enemyMinions m.store := by
  have hsym : ∀ cards : List Card,
      (cards.map regenCard).map Card.symbol = cards.map Card.symbol := by
    intro cards
    rw [List.map_map]
    induction cards with
    | nil => rfl
    | cons c t ih =>
      show (Card.symbol ∘ regenCard) c :: t.map (Card.symbol ∘ regenCard) =
        c.symbol :: t.map Card.symbol
      rw [ih]
      show (regenCard c).symbol :: _ = _
      rw [symbol_regenCard]
  refine ⟨_, loadModel_modelStr m, rfl, rfl, rfl, rfl, rfl, rfl, rfl, rfl,
    hsym m.player.deck, hsym m.player.hand, hsym m.enemy.deck,
    hsym m.enemy.hand, ?_, ?_⟩
  · show rosterTriples (List.range (rosterDatas m.playerMinions m.store).length)
        (rosterDatas m.playerMinions m.store ++
          rosterDatas m.enemyMinions m.store) =
      rosterTriples m.playerMinions m.store
    unfold rosterTriples
    rw [rosterDatas_model_left]
  · show rosterTriples
        ((List.range (rosterDatas m.enemyMinions m.store).length).map
          (· + (rosterDatas m.playerMinions m.store).length))
        (rosterDatas m.playerMinions m.store ++
          rosterDatas m.enemyMinions m.store) =
      rosterTriples m.enemyMinions m.store
    unfold rosterTriples
    rw [rosterDatas_model_right]

end PyHearth
